import Mathlib

/-!
Verification of the citation/reference protocol of an editor-integrated
assistant.  The development shallow-embeds the relevant program parts:

* the inline citation scanner used by the chat renderers (the global
  regular expression `\[([^\]]+)\]\(([^:)]+):?(\d+)?\)` together with the
  manual `exec`/`lastIndex` loop of `parseContent`,
  `getLineReferences` and `parseContentWithCitations`);
* the backend LLM service helpers `buildKeyFileReferenceList`,
  `scoreFileForSummary`, `describeFile`, `getFileExtension` and
  `getRepresentativeLineNumber`;
* the extension-side offline fallback (`_generateAIResponse` and the
  response generators it dispatches to, plus the error branch of
  `_handleUserMessage`);
* the server-side `generateDirectoryTree`.

Machine strings are modelled as `String`/`List Char`; JavaScript
`undefined`-able values as `Option`; code that can throw returns
`Option`.
-/

namespace Citations

/-- Output token of the citation scanner: either a plain character of
literal text, or one citation.  `tail = none` models a citation written
with no colon at all (`[label](path)`); `tail = some ds` models a colon
followed by the digit run `ds`, which is empty for the degenerate form
`[label](path:)` (where the regex group `(\d+)?` does not participate). -/
inductive Tok where
  | ch (c : Char)
  | cit (label : List Char) (path : List Char) (tail : Option (List Char))
deriving DecidableEq

/-- One attempt of the citation regular expression
`\[([^\]]+)\]\(([^:)]+):?(\d+)?\)` anchored at the start of the input.
Greedy matching of the three character classes is deterministic here
because each class excludes its closing delimiter, so the regex's
backtracking collapses to the `takeWhile`/`dropWhile` chains below.
Returns the captured label, path and optional colon tail together with
the unconsumed remainder. -/
def matchLink (cs : List Char) : Option (List Char × List Char × Option (List Char) × List Char) :=
  match cs with
  | '[' :: cs1 =>
    let label := cs1.takeWhile (fun c => c ≠ ']')
    match cs1.dropWhile (fun c => c ≠ ']') with
    | ']' :: '(' :: cs2 =>
      if label.isEmpty then none else
      let path := cs2.takeWhile (fun c => c ≠ ':' && c ≠ ')')
      match cs2.dropWhile (fun c => c ≠ ':' && c ≠ ')') with
      | ')' :: rest => if path.isEmpty then none else some (label, path, none, rest)
      | ':' :: cs3 =>
        if path.isEmpty then none else
        let ds := cs3.takeWhile Char.isDigit
        match cs3.dropWhile Char.isDigit with
        | ')' :: rest => some (label, path, some ds, rest)
        | _ => none
      | _ => none
    | _ => none
  | _ => none

/-- The source text a successful `matchLink` consumed:
`[label](path)` or `[label](path:digits)`. -/
def linkText (l p : List Char) (t : Option (List Char)) : List Char :=
  '[' :: (l ++ ']' :: '(' :: (p ++ (match t with | none => [] | some ds => ':' :: ds) ++ [')']))

/-- Fuel-driven version of the `while ((match = linkRegex.exec(text)))`
loop: at each position try the anchored regex; on success emit a
citation token and resume after it, otherwise emit the character as
literal text and advance by one.  Each step consumes at least one
character, so fuel equal to the length of the input suffices. -/
def scanF : Nat → List Char → List Tok
  | 0, _ => []
  | _ + 1, [] => []
  | fuel + 1, c :: cs =>
    match matchLink (c :: cs) with
    | some (l, p, t, rest) => .cit l p t :: scanF fuel rest
    | none => .ch c :: scanF fuel cs

/-- The citation scanner over one line of text. -/
def scan (cs : List Char) : List Tok := scanF cs.length cs

/-- Value of the optional line-number capture group, as the click
handlers consume it (`parseInt(lineNumber)`): `none` when the group did
not participate (no colon, or a colon with no digits), otherwise the
numeric value of the digit run. -/
def lineOfTail : Option (List Char) → Option Nat
  | none => none
  | some ds => if ds.isEmpty then none else some (ds.foldl (fun n c => 10 * n + (c.toNat - 48)) 0)

/-- Display fragment of a rendered message line, as `parseContent` of
the React chat interface builds it: a run of literal text, or one
clickable citation (label, file name, optional line number). -/
inductive Part where
  | lit (s : String)
  | cite (label : String) (path : String) (line : Option Nat)
deriving DecidableEq

/-- Grouping of scanner tokens into the `parts` array of `parseContent`:
maximal runs of literal characters become one string entry (pushed only
when non-empty, mirroring the `match.index > lastIndex` and
`lastIndex < text.length` guards), citations become link entries. -/
def toParts : List Tok → List Part
  | [] => []
  | .cit l p t :: ts => .cite ⟨l⟩ ⟨p⟩ (lineOfTail t) :: toParts ts
  | .ch c :: ts =>
    match toParts ts with
    | .lit s :: ps => .lit ⟨c :: s.data⟩ :: ps
    | ps => .lit ⟨[c]⟩ :: ps

/-- The `parseContent` function of the React `MessageContent`
component, restricted to its data content (the buttons' text and
payload; styling is out of scope). -/
def parseContent (text : String) : List Part := toParts (scan text.data)

/-- One entry of `getLineReferences`: the interface `LineReference`
with `fileName`, optional `lineNumber`, `linkText`. -/
structure LineReference where
  fileName : String
  lineNumber : Option Nat
  linkText : String
deriving DecidableEq

/-- The citations of a token list, in order of appearance. -/
def refsOf : List Tok → List LineReference
  | [] => []
  | .cit l p t :: ts => ⟨⟨p⟩, lineOfTail t, ⟨l⟩⟩ :: refsOf ts
  | .ch _ :: ts => refsOf ts

/-- The `getLineReferences` function of the React `MessageContent`
component: it re-runs the same regular expression over the line and
collects every match's captures. -/
def getLineReferences (line : String) : List LineReference := refsOf (scan line.data)

/-- JavaScript `text.split('\n')`. -/
def splitNl : List Char → List (List Char)
  | [] => [[]]
  | c :: cs =>
    match splitNl cs with
    | l :: ls => if c = '\n' then [] :: l :: ls else (c :: l) :: ls
    | [] => [[]]

/-- Joining what `splitNl` produced, newline-separated. -/
def joinNl : List (List Char) → List Char
  | [] => []
  | [l] => l
  | l :: l2 :: ls => l ++ '\n' :: joinNl (l2 :: ls)

/-- One rendered line of an assistant message: the inline parts and the
per-line citation buttons. -/
structure ParsedLine where
  parts : List Part
  refs : List LineReference
deriving DecidableEq

/-- The per-message parse of the React `MessageContent` component:
`content.split('\n')`, then `parseContent` and `getLineReferences` on
each line. -/
def parseMessage (content : String) : List ParsedLine :=
  (splitNl content.data).map (fun l => ⟨toParts (scan l), refsOf (scan l)⟩)

/-- Reconstruction of a line from its tokens with each citation
replaced by its original source text. -/
def flattenSource : List Tok → List Char
  | [] => []
  | .ch c :: ts => c :: flattenSource ts
  | .cit l p t :: ts => linkText l p t ++ flattenSource ts

/-- Extractable plain text of a token list: literal characters with
each citation contributing only its label. -/
def flattenStripped : List Tok → List Char
  | [] => []
  | .ch c :: ts => c :: flattenStripped ts
  | .cit l _ _ :: ts => l ++ flattenStripped ts

/-- Extractable plain text of a parts list: literal segments
concatenated with citation labels substituted in place. -/
def partsText : List Part → String
  | [] => ""
  | .lit s :: ps => s ++ partsText ps
  | .cite l _ _ :: ps => l ++ partsText ps

/-- Modelled from the spec: a line with exactly the citation
bracket/paren syntax removed — every well-formed citation occurrence is
replaced by its label, all other characters are kept verbatim. -/
def stripF : Nat → List Char → List Char
  | 0, _ => []
  | _ + 1, [] => []
  | fuel + 1, c :: cs =>
    match matchLink (c :: cs) with
    | some (l, _, _, rest) => l ++ stripF fuel rest
    | none => c :: stripF fuel cs

/-- Modelled from the spec: see `stripF`. -/
def stripCitationSyntax (cs : List Char) : List Char := stripF cs.length cs

/-- Rewriting of a message to CRLF line endings: every LF becomes CRLF. -/
def crlfOf : List Char → List Char
  | [] => []
  | '\n' :: cs => '\r' :: '\n' :: crlfOf cs
  | c :: cs => c :: crlfOf cs

/-- Apply a function to every entry of a list except the last one. -/
def mapExceptLast (f : List Char → List Char) : List (List Char) → List (List Char)
  | [] => []
  | [l] => [l]
  | l :: l2 :: ls => f l :: mapExceptLast f (l2 :: ls)

/-- Concatenation of the citation lists of all lines of a message. -/
def messageCitations (s : String) : List LineReference :=
  ((splitNl s.data).map (fun l => refsOf (scan l))).foldr (· ++ ·) []

end Citations

namespace Str

/-- JavaScript `a.startsWith(pat)` on character lists. -/
def beginsWith : List Char → List Char → Bool
  | _, [] => true
  | [], _ :: _ => false
  | c :: cs, p :: ps => c = p && beginsWith cs ps

/-- JavaScript `a.includes(pat)` on character lists. -/
def hasSub : List Char → List Char → Bool
  | [], pat => beginsWith [] pat
  | c :: cs, pat => beginsWith (c :: cs) pat || hasSub cs pat

/-- JavaScript `a.endsWith(pat)` on character lists. -/
def endsWithL (l pat : List Char) : Bool := beginsWith l.reverse pat.reverse

/-- JavaScript `s.includes(pat)`. -/
def strHas (s pat : String) : Bool := hasSub s.data pat.data

/-- JavaScript `s.startsWith(pat)`. -/
def strBegins (s pat : String) : Bool := beginsWith s.data pat.data

/-- JavaScript `s.endsWith(pat)`. -/
def strEnds (s pat : String) : Bool := endsWithL s.data pat.data

/-- JavaScript `s.toLowerCase()`, modelled on code points. -/
def toLowerStr (s : String) : String := ⟨s.data.map Char.toLower⟩

/-- JavaScript `s.trim()` on character lists. -/
def trimChars (l : List Char) : List Char :=
  ((l.dropWhile Char.isWhitespace).reverse.dropWhile Char.isWhitespace).reverse

/-- JavaScript `s.split(sep)` for a one-character separator. -/
def splitOnChar (sep : Char) : List Char → List (List Char)
  | [] => [[]]
  | c :: cs =>
    match splitOnChar sep cs with
    | l :: ls => if c = sep then [] :: l :: ls else (c :: l) :: ls
    | [] => [[]]

/-- JavaScript `s.split(/\r?\n/)` on character lists: a separator is a
lone LF or a CRLF pair; a CR not followed by LF stays in its line. -/
def splitCrNl : List Char → List (List Char)
  | [] => [[]]
  | '\n' :: cs => [] :: splitCrNl cs
  | '\r' :: '\n' :: cs => [] :: splitCrNl cs
  | c :: cs =>
    match splitCrNl cs with
    | l :: ls => (c :: l) :: ls
    | [] => [[c]]

/-- Lexicographic (code-point) comparison of character lists.  This is
the model of JavaScript `a.localeCompare(b) <= 0`: the host's
deterministic string collation, embedded as plain code-point order. -/
def lexLe : List Char → List Char → Bool
  | [], _ => true
  | _ :: _, [] => false
  | a :: as, b :: bs =>
    decide (a.toNat < b.toNat) || (decide (a.toNat = b.toNat) && lexLe as bs)

end Str

/-- A file record of a backend request: JavaScript objects whose
`filename` and `content` properties may be `undefined`. -/
structure FileRec where
  filename : Option String
  content : Option String
deriving DecidableEq

namespace LLMService

open Str

/-- The `getFileExtension` method: text after the last dot, lowercased;
empty when there is no dot or the dot is the final character. -/
def getFileExtension (filename : String) : String :=
  let revd := filename.data.reverse
  let after := revd.takeWhile (fun c => c ≠ '.')
  match revd.dropWhile (fun c => c ≠ '.') with
  | [] => ""
  | _ :: _ => if after.isEmpty then "" else ⟨(after.reverse).map Char.toLower⟩

/-- The `extensionScores` lookup table of `scoreFileForSummary`. -/
def extensionScores (ext : String) : Option Nat :=
  if ext = "tsx" then some 6
  else if ext = "jsx" then some 5
  else if ext = "ts" then some 5
  else if ext = "js" then some 4
  else if ext = "json" then some 4
  else if ext = "md" then some 2
  else if ext = "css" then some 2
  else if ext = "scss" then some 2
  else if ext = "html" then some 2
  else none

/-- The `scoreFileForSummary` method: extension weight (1 when the
extension is not in the table), plus path-based bonuses on the
lowercased file name, plus 1 when the content uses the React state
hooks. -/
def scoreFileForSummary (filename content : String) : Nat :=
  let ext := getFileExtension filename
  let lower := toLowerStr filename
  let extScore : Nat := match extensionScores ext with | some v => v | none => 1
  let pathScore : Nat :=
    if strEnds lower "package.json" then 5
    else if strHas lower "/components/" || strHas lower "\\components\\" then 2
    else if strEnds lower "README.md" then 3
    else if strHas lower "/tests/" || strHas lower "\\tests\\" then 1
    else 0
  let hookScore : Nat := if strHas content "useState(" || strHas content "useEffect(" then 1 else 0
  extScore + pathScore + hookScore

/-- The `describeFile` method. -/
def describeFile (filename content : String) : String :=
  let lower := toLowerStr filename
  let ext := getFileExtension filename
  if strEnds lower "package.json" then "Project dependencies and scripts"
  else if strEnds lower "tsconfig.json" then "TypeScript compiler configuration"
  else if strEnds lower "README.md" then "Documentation overview"
  else if strHas lower "/services/" || strHas lower "\\services\\" then "Service logic for backend features"
  else if strHas lower "/components/" || strHas lower "\\components\\" then "UI component"
  else if ext = "tsx" then
    (if strHas content "export default" then "React component entry point" else "React component")
  else if ext = "jsx" then "React component"
  else if ext = "ts" then "TypeScript module"
  else if ext = "js" then "JavaScript module"
  else if ext = "json" then "Configuration file"
  else if ext = "md" then "Markdown documentation"
  else if ext = "css" then "Styling definitions"
  else if ext = "scss" then "Styling definitions"
  else if ext = "html" then "HTML template"
  else "Source file"

/-- The line-walking loop of `getRepresentativeLineNumber`: `i` is the
zero-based index of the head line, `inB` the block-comment flag. -/
def repLineGo : List (List Char) → Nat → Bool → Nat
  | [], _, _ => 1
  | line :: ls, i, inB =>
    let t := trimChars line
    if t.isEmpty then repLineGo ls (i + 1) inB
    else if inB then repLineGo ls (i + 1) (!hasSub t "*/".data)
    else if beginsWith t "/*".data then repLineGo ls (i + 1) (!hasSub t "*/".data)
    else if beginsWith t "//".data || beginsWith t "*".data then repLineGo ls (i + 1) inB
    else if beginsWith t "import ".data || beginsWith t "export \x7b".data then repLineGo ls (i + 1) inB
    else i + 1

/-- The `getRepresentativeLineNumber` method: split on `\r?\n` and walk
the lines, skipping blanks, comments (line, block, and `*`-prefixed)
and import/re-export lines; 1 when nothing qualifies. -/
def getRepresentativeLineNumber (content : String) : Nat :=
  if content.data.isEmpty then 1
  else repLineGo (splitCrNl content.data) 0 false

/-- One entry of the `scoredFiles` array of `buildKeyFileReferenceList`. -/
structure ScoredFile where
  filename : String
  lineNumber : Nat
  description : String
  score : Nat
  size : Nat
deriving DecidableEq

/-- The filter of `buildKeyFileReferenceList`:
`file && file.filename && typeof file.content === 'string'` (an empty
file name is falsy in JavaScript). -/
def scoredFiles (files : List FileRec) : List ScoredFile :=
  files.filterMap (fun f =>
    match f.filename, f.content with
    | some fn, some c =>
      if fn = "" then none
      else some ⟨fn, getRepresentativeLineNumber c, describeFile fn c, scoreFileForSummary fn c, c.data.length⟩
    | _, _ => none)

/-- The sort comparator of `buildKeyFileReferenceList` as a non-strict
order: descending score, then descending size, then `localeCompare` on
the file name (modelled as code-point order). -/
def fileLe (a b : ScoredFile) : Bool :=
  if a.score = b.score then
    if a.size = b.size then lexLe a.filename.data b.filename.data
    else decide (b.size < a.size)
  else decide (b.score < a.score)

/-- The `topFiles` array of `buildKeyFileReferenceList`: the scored
records sorted by the comparator, first five kept.  The host's stable
sort is modelled by the stable insertion sort: a stable sort's output
is uniquely determined by the comparator and the input order. -/
def topFiles (files : List FileRec) : List ScoredFile :=
  ((scoredFiles files).insertionSort (fun a b => fileLe a b)).take 5

/-- The bullet a top file is formatted into.  `safeLine` keeps the
representative line when it is a positive integer and falls back to 1
otherwise (`Number.isInteger` always holds in this model, where line
numbers are naturals). -/
def bulletOf (f : ScoredFile) : String :=
  let safeLine := if 0 < f.lineNumber then f.lineNumber else 1
  "• [" ++ f.filename ++ "](" ++ f.filename ++ ":" ++ toString safeLine ++ ") - " ++ f.description

/-- The `buildKeyFileReferenceList` method. -/
def buildKeyFileReferenceList (files : List FileRec) : List String :=
  (topFiles files).map bulletOf

/-- Validity test matching the filter inside `scoredFiles`. -/
def validRec (f : FileRec) : Bool :=
  match f.filename, f.content with
  | some fn, some _ => !(fn = "")
  | _, _ => false

/-- The sort comparator in propositional form: strictly larger score
first; among equal scores strictly larger size first; among equal
score and size the lexicographically not-larger file name first. -/
def FileOrd (a b : ScoredFile) : Prop :=
  b.score < a.score ∨ (a.score = b.score ∧
    (b.size < a.size ∨ (a.size = b.size ∧ Str.lexLe a.filename.data b.filename.data = true)))

end LLMService

namespace Extension

open Str

/-- JavaScript truthiness of an optional string (`undefined` and the
empty string are falsy). -/
def isTruthy : Option String → Bool
  | none => false
  | some s => !(s = "")

/-- JavaScript `opt || dflt` for strings. -/
def orDefault (o : Option String) (dflt : String) : String :=
  match o with
  | some s => if s = "" then dflt else s
  | none => dflt

/-- The `_generateRepositorySummary` method of the extension provider.
The source stores its bullet character as the literal three-character
sequence U+201A U+00C4 U+00A2, reproduced verbatim here. -/
def generateRepositorySummary (workspaceFiles : List String) (currentFile : Option String) : String :=
  let hasReact := workspaceFiles.any (fun f => strHas f "App.tsx" || strHas f "index.tsx")
  let hasComponents := workspaceFiles.any (fun f => strHas f "components/")
  let hasTypes := workspaceFiles.any (fun f => strHas f "types/" || strHas f ".ts")
  let hasPackageJson := workspaceFiles.any (fun f => strHas f "package.json")
  let headerFile := workspaceFiles.find? (fun f => strHas f "Header.tsx")
  let sidebarFile := workspaceFiles.find? (fun f => strHas f "Sidebar.tsx")
  let chatInterfaceFile := workspaceFiles.find? (fun f => strHas f "ChatInterface.tsx")
  let appFile := workspaceFiles.find? (fun f => strHas f "App.tsx")
  let packageFile := workspaceFiles.find? (fun f => strHas f "package.json")
  if hasReact && hasComponents then
    "This is a VS Code extension project for an AI coding assistant. The main components include:\n\n‚Ä¢ React Components: [Header component](" ++ orDefault headerFile "src/components/Header.tsx" ++ ":8), [Sidebar navigation](" ++ orDefault sidebarFile "src/components/Sidebar.tsx" ++ ":12), and [ChatInterface](" ++ orDefault chatInterfaceFile "src/components/ChatInterface.tsx" ++ ":45) for the UI\n‚Ä¢ Core Logic: Main [App function](" ++ orDefault appFile "src/App.tsx" ++ ":9) with [useState hooks](" ++ orDefault appFile "src/App.tsx" ++ ":10) for state management\n‚Ä¢ Package Configuration: Standard VS Code extension setup with OpenAI integration in [package.json](" ++ orDefault packageFile "package.json" ++ ":15)\n\nThe architecture follows a typical VS Code extension pattern with a clean React-based interface defined in the [default export](" ++ orDefault appFile "src/App.tsx" ++ ":23)."
  else if hasTypes then
    "This appears to be a TypeScript project. The main files include:\n\n‚Ä¢ TypeScript files with type definitions and interfaces\n‚Ä¢ Configuration files for build and development\n‚Ä¢ Source code organized in a structured manner\n\nThe project uses TypeScript for type safety and modern JavaScript features."
  else if hasPackageJson then
    "This is a Node.js project with package.json configuration. The project structure includes:\n\n‚Ä¢ Package dependencies and scripts\n‚Ä¢ Configuration files for various tools\n‚Ä¢ Source code files\n\nThe project follows standard Node.js conventions with package management through npm."
  else
    "This workspace contains various files and directories. The structure includes:\n\n‚Ä¢ Multiple file types and formats\n‚Ä¢ Organized directory structure\n‚Ä¢ Configuration and source files\n\nThe workspace appears to be a development project with mixed file types and purposes."

/-- The `_generateExplanationResponse` method. -/
def generateExplanationResponse (currentFile : Option String) (_workspaceFiles : List String) : String :=
  if isTruthy currentFile then
    let f := orDefault currentFile ""
    "Looking at the current file [" ++ f ++ "](" ++ f ++ ":1), this appears to be part of a larger project structure.\n\nThe file is located in the workspace and contains code that contributes to the overall functionality. To provide a more detailed explanation, I would need to examine the specific content and context of this file.\n\nWould you like me to analyze a specific part of this file or explain how it relates to other components in the project?"
  else
    "I can help explain various aspects of your codebase. To provide the most relevant explanation, please:\n\n1. Open a specific file you\x27d like me to explain\n2. Ask about a particular concept or pattern\n3. Request clarification on how different parts of your code work together\n\nWhat specific aspect would you like me to explain?"

/-- The `_generateCodeGenerationResponse` method. -/
def generateCodeGenerationResponse (workspaceFiles : List String) : String :=
  let hasReact := workspaceFiles.any (fun f => strHas f "App.tsx" || strHas f "index.tsx")
  let hasComponents := workspaceFiles.any (fun f => strHas f "components/")
  if hasReact && hasComponents then
    "I can help you generate code for your React-based VS Code extension. Here are some common code generation tasks:\n\n‚Ä¢ **New React Component**: Create a new component with proper TypeScript types\n‚Ä¢ **VS Code Extension Command**: Add a new command to your extension\n‚Ä¢ **Webview Integration**: Set up communication between extension and webview\n‚Ä¢ **Configuration Settings**: Add extension configuration options\n\nWhat specific code would you like me to generate? For example:\n- \"Generate a new React component called UserProfile\"\n- \"Create a VS Code command for file analysis\"\n- \"Add a configuration setting for API endpoints\""
  else
    "I can help you generate code for your project. Based on your workspace structure, I can assist with:\n\n‚Ä¢ **File Templates**: Create new files with proper structure\n‚Ä¢ **Configuration Files**: Generate config files for various tools\n‚Ä¢ **Code Snippets**: Create reusable code patterns\n‚Ä¢ **Documentation**: Generate README files and documentation\n\nWhat type of code would you like me to generate? Please specify:\n- The type of file or component\n- The programming language or framework\n- Any specific requirements or patterns you need"

/-- The `_generateGeneralResponse` method. -/
def generateGeneralResponse (message : String) (workspaceFiles : List String) (currentFile : Option String) : String :=
  "I understand you\x27re asking about \"" ++ message ++ "\". \n\nI can help you with various tasks related to your codebase:\n\n‚Ä¢ **Code Analysis**: Explain how your code works\n‚Ä¢ **Repository Summary**: Provide an overview of your project structure\n‚Ä¢ **Code Generation**: Create new files, components, or functions\n‚Ä¢ **File Navigation**: Help you find and open specific files\n‚Ä¢ **Debugging**: Assist with troubleshooting issues\n\nYour workspace contains " ++ toString workspaceFiles.length ++ " files" ++
    (if isTruthy currentFile then
      let f := orDefault currentFile ""
      ", and you\x27re currently working on [" ++ f ++ "](" ++ f ++ ":1)"
    else "") ++ ".\n\nHow can I assist you further?"

/-- The `_generateAIResponse` dispatcher: keyword routing on the
lowercased message. -/
def generateAIResponse (message : String) (workspaceFiles : List String) (currentFile : Option String) : String :=
  let lowerMessage := toLowerStr message
  if strHas lowerMessage "summary" || strHas lowerMessage "repository" || strHas lowerMessage "repo" then
    generateRepositorySummary workspaceFiles currentFile
  else if strHas lowerMessage "explain" || strHas lowerMessage "what" || strHas lowerMessage "how" then
    generateExplanationResponse currentFile workspaceFiles
  else if strHas lowerMessage "generate" || strHas lowerMessage "create" || strHas lowerMessage "new" then
    generateCodeGenerationResponse workspaceFiles
  else
    generateGeneralResponse message workspaceFiles currentFile

/-- Outcome of `_handleUserMessage` as a function of the backend call's
outcome: on success the backend response is shown; on any error the
deterministic offline fallback is composed with an empty workspace list
and no current file, prefixed by the offline-mode banner (whose leading
characters are the source's literal U+201A U+00F6 U+2020 U+00D4 U+220F
U+00E8 sequence).  No failure escapes to the caller. -/
def handleUserMessage (backend : Except String String) (text : String) : String :=
  match backend with
  | .ok response => response
  | .error _ =>
    "‚ö†Ô∏è Backend unavailable. Using offline mode:\n\n" ++ generateAIResponse text [] none

end Extension

namespace Webview

open Citations

/-- The `${lineNumber || 'null'}` interpolation of the webview
`parseContent`: the digit run of the third capture group, or
`null` when the group did not participate. -/
def lineArg : Option (List Char) → List Char
  | none => "null".data
  | some ds => if ds.isEmpty then "null".data else ds

/-- The replacement a citation match receives in the webview
`parseContent`. -/
def spanOf (l p : List Char) (t : Option (List Char)) : List Char :=
  "<span class=\"file-link\" onclick=\"openFile(\x27".data ++ p ++ "\x27, ".data ++ lineArg t
    ++ ")\">".data ++ l ++ "</span>".data

/-- Apply the webview replacement to every citation of a token list. -/
def replaceToks : List Tok → List Char
  | [] => []
  | .ch c :: ts => c :: replaceToks ts
  | .cit l p t :: ts => spanOf l p t ++ replaceToks ts

/-- The webview `parseContent` function:
`text.replace(linkRegex, (match, linkText, fileName, lineNumber) => span)`. -/
def parseContent (text : String) : String := ⟨replaceToks (scan text.data)⟩

/-- The user branch of the webview `addMessage`: for `type !== 'ai'`
the message markup is `parseContent(content)` (the AI branch instead
uses `parseContentWithCitations` and stores the raw content). -/
def renderUserMessage (content : String) : String := parseContent content

end Webview

namespace Server

open Str

/-- A node of the directory tree `generateDirectoryTree` builds:
either a file entry with its metadata, or a directory entry whose
children are an insertion-ordered map (modelled as an association
list). -/
inductive TreeNode where
  | file (size : Nat) (extension : String) (preview : List String) (fullContent : String)
  | dir (children : List (String × TreeNode))

/-- JavaScript property update `obj[k] = v` on an insertion-ordered
object: replace in place when the key exists, else append. -/
def setKey : List (String × TreeNode) → String → TreeNode → List (String × TreeNode)
  | [], k, v => [(k, v)]
  | (k', v') :: m, k, v => if k' = k then (k, v) :: m else (k', v') :: setKey m k v

/-- JavaScript property read `obj[k]`. -/
def getKey : List (String × TreeNode) → String → Option TreeNode
  | [], _ => none
  | (k', v') :: m, k => if k' = k then some v' else getKey m k

/-- The `extension` field of a file entry: `part.split('.').pop() ||
'unknown'`. -/
def extOfPart (part : String) : String :=
  let lastSeg := (part.data.reverse.takeWhile (fun c => c ≠ '.')).reverse
  if lastSeg.isEmpty then "unknown" else ⟨lastSeg⟩

/-- The file entry built at the last path component: size, extension
and the first up-to-three trimmed non-empty lines as preview. -/
def fileNode (part : String) (content : String) : TreeNode :=
  .file content.data.length (extOfPart part)
    ((((Citations.splitNl content.data).take 3).map (fun l => (⟨trimChars l⟩ : String))).filter
      (fun s => !s.data.isEmpty))
    content

/-- The per-file walk of `generateDirectoryTree` over the slash-split
path components.  Descending into an existing file entry leaves
JavaScript's `current` equal to `undefined` and the next property
access throws; that crash is modelled as `none`. -/
def insertParts (children : List (String × TreeNode)) (parts : List String) (content : String) :
    Option (List (String × TreeNode)) :=
  match parts with
  | [] => some children
  | [part] => some (setKey children part (fileNode part content))
  | part :: p2 :: rest =>
    match getKey children part with
    | some (.dir cs) => do
      let cs' ← insertParts cs (p2 :: rest) content
      some (setKey children part (.dir cs'))
    | some (.file ..) => none
    | none => do
      let cs' ← insertParts [] (p2 :: rest) content
      some (setKey children part (.dir cs'))

/-- The slash-split path components of a file name. -/
def pathComponents (fn : String) : List String :=
  (splitOnChar '/' fn.data).map (fun l => (⟨l⟩ : String))

/-- One iteration of the `files.forEach` loop of
`generateDirectoryTree`: records with a falsy `filename` are skipped,
otherwise the slash-split path is inserted with `content || ''` as the
file payload. -/
def insertRecord (tree : List (String × TreeNode)) (f : FileRec) :
    Option (List (String × TreeNode)) :=
  match f.filename with
  | none => some tree
  | some fn =>
    if fn = "" then some tree
    else insertParts tree (pathComponents fn) (match f.content with | some c => c | none => "")

/-- The `generateDirectoryTree` function (identical in the server and
in the backend LLM service): fold the records into a nested tree
starting from the empty object. -/
def generateDirectoryTree (files : List FileRec) : Option (List (String × TreeNode)) :=
  files.foldlM insertRecord []

/-- Every component of the given path is an edge of the tree. -/
def hasEdgePath : List (String × TreeNode) → List String → Bool
  | _, [] => true
  | m, k :: ks =>
    match getKey m k with
    | some (.dir cs) => hasEdgePath cs ks
    | some (.file ..) => ks.isEmpty
    | none => false

/-- The path leads through directory edges to a file entry. -/
def fileAt : List (String × TreeNode) → List String → Bool
  | _, [] => false
  | m, [k] =>
    match getKey m k with
    | some (.file ..) => true
    | _ => false
  | m, k :: k2 :: ks =>
    match getKey m k with
    | some (.dir cs) => fileAt cs (k2 :: ks)
    | _ => false

mutual

/-- Sibling names are unique at every level of a node. -/
def nodeKeysUnique : TreeNode → Bool
  | .file .. => true
  | .dir cs => keysUnique cs

/-- Sibling names are unique at every level of a children map. -/
def keysUnique : List (String × TreeNode) → Bool
  | [] => true
  | (k, v) :: m => !(m.any (fun kv => kv.1 = k)) && nodeKeysUnique v && keysUnique m

end

mutual

/-- Every directory node of the subtree, including the node itself,
has at least one descendant file entry. -/
def dirsHaveFile : TreeNode → Bool
  | .file .. => true
  | .dir cs => !cs.isEmpty && dirsHaveFileL cs

/-- See `dirsHaveFile`, over a children map. -/
def dirsHaveFileL : List (String × TreeNode) → Bool
  | [] => true
  | (_, v) :: m => dirsHaveFile v && dirsHaveFileL m

end

/-- The component paths of the records `generateDirectoryTree` keeps. -/
def keptPaths (files : List FileRec) : List (List String) :=
  files.filterMap (fun f =>
    match f.filename with
    | none => none
    | some fn => if fn = "" then none else some (pathComponents fn))

/-- Proper-prefix freedom of a collection of component paths, pairwise
and in both directions (duplicates are allowed). -/
def PrefixFreeRel (p q : List String) : Prop :=
  ¬(p <+: q ∧ p ≠ q) ∧ ¬(q <+: p ∧ q ≠ p)

/-- Pairwise proper-prefix freedom of a collection of component paths. -/
def PrefixFree (ps : List (List String)) : Prop := List.Pairwise PrefixFreeRel ps

end Server

namespace SpecModel

open Str

/-- Modelled from the spec's description of representative-line
selection: whether a trimmed line is one of the skipped categories.
`star` toggles the extra category of lines starting with `*` (block
comment continuation), which the spec's list omits. -/
def skippableLine (star : Bool) (t : List Char) (inB : Bool) : Bool :=
  t.isEmpty || inB || beginsWith t "/*".data || beginsWith t "//".data ||
    (star && beginsWith t "*".data) || beginsWith t "import ".data ||
    beginsWith t "export \x7b".data

/-- Modelled from the spec: the block-comment open/close state after a
trimmed line, tracked across lines. -/
def nextBlockState (t : List Char) (inB : Bool) : Bool :=
  if t.isEmpty then inB
  else if inB then !hasSub t "*/".data
  else beginsWith t "/*".data && !hasSub t "*/".data

/-- Modelled from the spec: the 1-based index of the first line that is
in none of the skipped categories, walking from the top. -/
def firstMeaningful (star : Bool) : List (List Char) → Bool → Option Nat
  | [], _ => none
  | line :: ls, inB =>
    let t := trimChars line
    if skippableLine star t inB then (firstMeaningful star ls (nextBlockState t inB)).map (· + 1)
    else some 1

/-- Modelled from the spec: `pickRepresentativeLine` — split into
lines, return the 1-based index of the first meaningful line, and 1
when every line is skipped. -/
def pickRepresentativeLine (star : Bool) (content : String) : Nat :=
  match firstMeaningful star (splitCrNl content.data) false with
  | some i => i
  | none => 1

end SpecModel

namespace Citations

theorem dropWhile_head_false {α : Type} (p : α → Bool) :
    ∀ (l : List α) (a : α) (as : List α), l.dropWhile p = a :: as → p a = false := by
  intro l
  induction l with
  | nil => intro a as h; simp [List.dropWhile] at h
  | cons x xs ih =>
    intro a as h
    rw [List.dropWhile_cons] at h
    by_cases hx : p x = true
    · rw [if_pos hx] at h; exact ih a as h
    · rw [if_neg hx] at h
      cases h
      simpa using hx

theorem takeDrop_append_of_drop_cons {α : Type} (p : α → Bool) :
    ∀ (l : List α) (a : α) (as ys : List α), l.dropWhile p = a :: as →
      (l ++ ys).takeWhile p = l.takeWhile p ∧ (l ++ ys).dropWhile p = a :: (as ++ ys) := by
  intro l
  induction l with
  | nil => intro a as ys h; simp [List.dropWhile] at h
  | cons x xs ih =>
    intro a as ys h
    rw [List.dropWhile_cons] at h
    by_cases hx : p x = true
    · rw [if_pos hx] at h
      obtain ⟨h1, h2⟩ := ih a as ys h
      refine ⟨?_, ?_⟩
      · simp only [List.cons_append, List.takeWhile_cons, hx, if_pos, h1]
      · simp only [List.cons_append, List.dropWhile_cons, hx, if_pos, h2]
    · rw [if_neg hx] at h
      cases h
      refine ⟨?_, ?_⟩
      · simp only [List.cons_append, List.takeWhile_cons, hx]
        simp
      · simp only [List.cons_append, List.dropWhile_cons, hx]
        simp

theorem takeDrop_append_of_drop_nil {α : Type} (p : α → Bool) :
    ∀ (l ys : List α), l.dropWhile p = [] →
      (l ++ ys).takeWhile p = l ++ ys.takeWhile p ∧ (l ++ ys).dropWhile p = ys.dropWhile p := by
  intro l
  induction l with
  | nil => intro ys h; simp
  | cons x xs ih =>
    intro ys h
    rw [List.dropWhile_cons] at h
    by_cases hx : p x = true
    · rw [if_pos hx] at h
      obtain ⟨h1, h2⟩ := ih ys h
      refine ⟨?_, ?_⟩
      · simp only [List.cons_append, List.takeWhile_cons, hx, if_pos, h1]
      · simp only [List.cons_append, List.dropWhile_cons, hx, if_pos, h2]
    · rw [if_neg hx] at h
      simp at h

theorem matchLink_some_eq {cs l p t rest} (h : matchLink cs = some (l, p, t, rest)) :
    cs = linkText l p t ++ rest := by
  unfold matchLink at h
  split at h
  · rename_i cs1
    simp only at h
    split at h
    · rename_i cs2 heq1
      split at h
      · simp at h
      · split at h
        · rename_i rest' heq2
          split at h
          · simp at h
          · simp only [Option.some.injEq, Prod.mk.injEq] at h
            obtain ⟨hl, hp, ht, hr⟩ := h
            subst hl hp hr
            have e1 := List.takeWhile_append_dropWhile (fun c => c ≠ ']') cs1
            have e2 := List.takeWhile_append_dropWhile (fun c => c ≠ ':' && c ≠ ')') cs2
            rw [heq1] at e1
            rw [heq2] at e2
            subst ht
            simp only [linkText, List.cons_append, List.append_assoc, List.append_nil,
              List.nil_append, List.singleton_append]
            rw [e2, e1]
        · rename_i cs3 heq2
          split at h
          · simp at h
          · split at h
            · rename_i rest' heq3
              simp only [Option.some.injEq, Prod.mk.injEq] at h
              obtain ⟨hl, hp, ht, hr⟩ := h
              subst hl hp hr
              have e1 := List.takeWhile_append_dropWhile (fun c => c ≠ ']') cs1
              have e2 := List.takeWhile_append_dropWhile (fun c => c ≠ ':' && c ≠ ')') cs2
              have e3 := List.takeWhile_append_dropWhile Char.isDigit cs3
              rw [heq1] at e1
              rw [heq2] at e2
              rw [heq3] at e3
              subst ht
              simp only [linkText, List.cons_append, List.append_assoc, List.append_nil,
                List.nil_append, List.singleton_append]
              rw [e3, e2, e1]
            · simp at h
        · simp at h
    · simp at h
  · simp at h

theorem matchLink_length {cs l p t rest} (h : matchLink cs = some (l, p, t, rest)) :
    rest.length < cs.length := by
  have := matchLink_some_eq h
  subst this
  simp [linkText]
  omega

theorem matchLink_append {cs l p t rest} (xs : List Char)
    (h : matchLink cs = some (l, p, t, rest)) :
    matchLink (cs ++ xs) = some (l, p, t, rest ++ xs) := by
  unfold matchLink at h
  split at h
  · rename_i cs1
    simp only at h
    split at h
    · rename_i cs2 heq1
      obtain ⟨ht1, hd1⟩ := takeDrop_append_of_drop_cons _ cs1 _ _ xs heq1
      split at h
      · simp at h
      · rename_i hlabel
        split at h
        · rename_i rest' heq2
          split at h
          · simp at h
          · rename_i hpath
            simp only [Option.some.injEq, Prod.mk.injEq] at h
            obtain ⟨hl, hp, ht, hr⟩ := h
            subst hl hp hr
            subst ht
            obtain ⟨ht2, hd2⟩ := takeDrop_append_of_drop_cons _ cs2 _ _ xs heq2
            show matchLink ('[' :: (cs1 ++ xs)) = _
            unfold matchLink
            simp only [hd1, List.cons_append, ht1]
            rw [if_neg (by simpa using hlabel)]
            simp only [ht2, hd2]
            rw [if_neg (by simpa using hpath)]
        · rename_i cs3 heq2
          split at h
          · simp at h
          · rename_i hpath
            split at h
            · rename_i rest' heq3
              simp only [Option.some.injEq, Prod.mk.injEq] at h
              obtain ⟨hl, hp, ht, hr⟩ := h
              subst hl hp hr
              subst ht
              obtain ⟨ht2, hd2⟩ := takeDrop_append_of_drop_cons _ cs2 _ _ xs heq2
              obtain ⟨ht3, hd3⟩ := takeDrop_append_of_drop_cons _ cs3 _ _ xs heq3
              show matchLink ('[' :: (cs1 ++ xs)) = _
              unfold matchLink
              simp only [hd1, List.cons_append, ht1]
              rw [if_neg (by simpa using hlabel)]
              simp only [ht2, hd2]
              rw [if_neg (by simpa using hpath)]
              simp only [ht3, hd3]
            · simp at h
        · simp at h
    · simp at h
  · simp at h

theorem matchLink_captures {cs l p t rest} (h : matchLink cs = some (l, p, t, rest)) :
    l ≠ [] ∧ (∀ c ∈ l, c ≠ ']') ∧ p ≠ [] ∧ (∀ c ∈ p, c ≠ ':' ∧ c ≠ ')') ∧
      (∀ ds, t = some ds → ∀ c ∈ ds, c.isDigit = true) := by
  unfold matchLink at h
  split at h
  · rename_i cs1
    simp only at h
    split at h
    · rename_i cs2 heq1
      split at h
      · simp at h
      · rename_i hlabel
        have hlab2 : ∀ c ∈ cs1.takeWhile (fun c => c ≠ ']'), c ≠ ']' := by
          intro c hc
          simpa using List.mem_takeWhile_imp hc
        split at h
        · rename_i rest' heq2
          split at h
          · simp at h
          · rename_i hpath
            simp only [Option.some.injEq, Prod.mk.injEq] at h
            obtain ⟨hl, hp, ht, hr⟩ := h
            subst hl hp hr
            subst ht
            refine ⟨by simpa using hlabel, hlab2, by simpa using hpath, ?_, by simp⟩
            intro c hc
            have := List.mem_takeWhile_imp hc
            simp at this
            exact this
        · rename_i cs3 heq2
          split at h
          · simp at h
          · rename_i hpath
            split at h
            · rename_i rest' heq3
              simp only [Option.some.injEq, Prod.mk.injEq] at h
              obtain ⟨hl, hp, ht, hr⟩ := h
              subst hl hp hr
              subst ht
              refine ⟨by simpa using hlabel, hlab2, by simpa using hpath, ?_, ?_⟩
              · intro c hc
                have := List.mem_takeWhile_imp hc
                simp at this
                exact this
              · intro ds hds c hc
                cases hds
                exact List.mem_takeWhile_imp hc
            · simp at h
        · simp at h
    · simp at h
  · simp at h

theorem isEmpty_false_of_ne_nil {α : Type} {l : List α} (h : l ≠ []) : l.isEmpty = false := by
  cases l with
  | nil => exact absurd rfl h
  | cons a as => rfl

theorem matchLink_complete (l p : List Char) (t : Option (List Char)) (rest : List Char)
    (hl : l ≠ []) (hl2 : ∀ c ∈ l, c ≠ ']')
    (hp : p ≠ []) (hp2 : ∀ c ∈ p, c ≠ ':' ∧ c ≠ ')')
    (ht : ∀ ds, t = some ds → ∀ c ∈ ds, c.isDigit = true) :
    matchLink (linkText l p t ++ rest) = some (l, p, t, rest) := by
  have hld : l.dropWhile (fun c => c ≠ ']') = [] := by
    rw [List.dropWhile_eq_nil_iff]
    intro x hx
    simpa using hl2 x hx
  have hpd : p.dropWhile (fun c => c ≠ ':' && c ≠ ')') = [] := by
    rw [List.dropWhile_eq_nil_iff]
    intro x hx
    have := hp2 x hx
    simp [this.1, this.2]
  have hle := isEmpty_false_of_ne_nil hl
  have hpe := isEmpty_false_of_ne_nil hp
  cases t with
  | none =>
    have step : linkText l p none ++ rest = '[' :: (l ++ (']' :: '(' :: (p ++ ')' :: rest))) := by
      simp [linkText, List.append_assoc]
    rw [step]
    unfold matchLink
    obtain ⟨hta, htb⟩ := takeDrop_append_of_drop_nil (fun c => c ≠ ']') l
      (']' :: '(' :: (p ++ ')' :: rest)) hld
    obtain ⟨hpa, hpb⟩ := takeDrop_append_of_drop_nil (fun c => c ≠ ':' && c ≠ ')') p
      (')' :: rest) hpd
    have e0 : List.takeWhile (fun c => c ≠ ']') (']' :: '(' :: (p ++ ')' :: rest)) = [] := rfl
    have e1 : List.dropWhile (fun c => c ≠ ']') (']' :: '(' :: (p ++ ')' :: rest)) =
        ']' :: '(' :: (p ++ ')' :: rest) := rfl
    have e2 : List.takeWhile (fun c => c ≠ ':' && c ≠ ')') (')' :: rest) = [] := rfl
    have e3 : List.dropWhile (fun c => c ≠ ':' && c ≠ ')') (')' :: rest) = ')' :: rest := rfl
    simp only [htb, e1, hta, e0, List.append_nil, hle, hpb, e3, hpa, e2]
    simp [hpe]
  | some ds =>
    have hds : ∀ c ∈ ds, c.isDigit = true := ht ds rfl
    have hdd : ds.dropWhile Char.isDigit = [] := by
      rw [List.dropWhile_eq_nil_iff]
      exact hds
    have step : linkText l p (some ds) ++ rest =
        '[' :: (l ++ (']' :: '(' :: (p ++ ':' :: (ds ++ ')' :: rest)))) := by
      simp [linkText, List.append_assoc]
    rw [step]
    unfold matchLink
    obtain ⟨hta, htb⟩ := takeDrop_append_of_drop_nil (fun c => c ≠ ']') l
      (']' :: '(' :: (p ++ ':' :: (ds ++ ')' :: rest))) hld
    obtain ⟨hpa, hpb⟩ := takeDrop_append_of_drop_nil (fun c => c ≠ ':' && c ≠ ')') p
      (':' :: (ds ++ ')' :: rest)) hpd
    obtain ⟨hda, hdb⟩ := takeDrop_append_of_drop_nil Char.isDigit ds (')' :: rest) hdd
    have e0 : List.takeWhile (fun c => c ≠ ']') (']' :: '(' :: (p ++ ':' :: (ds ++ ')' :: rest))) = [] := rfl
    have e1 : List.dropWhile (fun c => c ≠ ']') (']' :: '(' :: (p ++ ':' :: (ds ++ ')' :: rest))) =
        ']' :: '(' :: (p ++ ':' :: (ds ++ ')' :: rest)) := rfl
    have e2 : List.takeWhile (fun c => c ≠ ':' && c ≠ ')') (':' :: (ds ++ ')' :: rest)) = [] := rfl
    have e3 : List.dropWhile (fun c => c ≠ ':' && c ≠ ')') (':' :: (ds ++ ')' :: rest)) =
        ':' :: (ds ++ ')' :: rest) := rfl
    have e4 : List.takeWhile Char.isDigit (')' :: rest) = [] := rfl
    have e5 : List.dropWhile Char.isDigit (')' :: rest) = ')' :: rest := rfl
    simp only [htb, e1, hta, e0, List.append_nil, hle, hpb, e3, hpa, e2, hdb, e5, hda, e4]
    simp [hpe]

theorem linkText_split (l p : List Char) (t : Option (List Char)) :
    linkText l p t = ('[' :: (l ++ ']' :: '(' :: (p ++ (match t with | none => [] | some ds => ':' :: ds)))) ++ [')'] := by
  cases t <;> simp [linkText, List.append_assoc]

theorem matchLink_append_none {cs : List Char} {x : Char}
    (hx : x ≠ ')') (h : matchLink cs = none) : matchLink (cs ++ [x]) = none := by
  rcases ho : matchLink (cs ++ [x]) with _ | ⟨l, p, t, rest⟩
  · rfl
  · exfalso
    have heq := matchLink_some_eq ho
    obtain ⟨hl, hl2, hp, hp2, ht⟩ := matchLink_captures ho
    rcases List.eq_nil_or_concat rest with hrest | ⟨r', y, hrest⟩
    · subst hrest
      rw [List.append_nil, linkText_split] at heq
      obtain ⟨-, hxy⟩ := List.append_inj' heq rfl
      exact hx (List.singleton_injective hxy)
    · subst hrest
      rw [List.concat_eq_append, ← List.append_assoc] at heq
      obtain ⟨hcs, hxy⟩ := List.append_inj' heq rfl
      cases List.singleton_injective hxy
      have hc := matchLink_complete l p t r' hl hl2 hp hp2 ht
      rw [← hcs] at hc
      rw [h] at hc
      exact Option.noConfusion hc

theorem matchLink_single (x : Char) : matchLink [x] = none := by
  rcases ho : matchLink [x] with _ | ⟨l, p, t, rest⟩
  · rfl
  · exfalso
    have heq := matchLink_some_eq ho
    have hlen := congrArg List.length heq
    cases t with
    | none =>
      simp [linkText] at hlen
    | some ds =>
      simp [linkText] at hlen

theorem scanF_congr : ∀ f g cs, cs.length ≤ f → cs.length ≤ g → scanF f cs = scanF g cs := by
  intro f
  induction f with
  | zero =>
    intro g cs hf _
    have : cs = [] := List.eq_nil_of_length_eq_zero (Nat.le_zero.1 hf)
    subst this
    cases g <;> rfl
  | succ f ih =>
    intro g cs hf hg
    cases cs with
    | nil => cases g <;> rfl
    | cons c cs' =>
      cases g with
      | zero => simp at hg
      | succ g' =>
        show scanF (f + 1) (c :: cs') = scanF (g' + 1) (c :: cs')
        unfold scanF
        rcases h : matchLink (c :: cs') with _ | ⟨l, p, t, rest⟩
        · simp only
          rw [ih g' cs' (by simpa using hf) (by simpa using hg)]
        · simp only
          have hr := matchLink_length h
          simp only [List.length_cons] at hr hf hg
          rw [ih g' rest (by omega) (by omega)]

theorem scanF_eq_scan {f : Nat} {cs : List Char} (h : cs.length ≤ f) : scanF f cs = scan cs :=
  scanF_congr f cs.length cs h (Nat.le_refl _)

theorem scan_nil : scan [] = [] := rfl

theorem scanF_succ (n : Nat) (c : Char) (cs : List Char) :
    scanF (n + 1) (c :: cs) =
      (match matchLink (c :: cs) with
       | some (l, p, t, rest) => Tok.cit l p t :: scanF n rest
       | none => Tok.ch c :: scanF n cs) := rfl

theorem scan_cons_some {c : Char} {cs l p t rest} (h : matchLink (c :: cs) = some (l, p, t, rest)) :
    scan (c :: cs) = .cit l p t :: scan rest := by
  have hr := matchLink_length h
  simp only [List.length_cons] at hr
  have e : scan (c :: cs) = scanF (cs.length + 1) (c :: cs) := rfl
  rw [e, scanF_succ, h]
  show Tok.cit l p t :: scanF cs.length rest = _
  rw [scanF_eq_scan (by omega)]

theorem scan_cons_none {c : Char} {cs} (h : matchLink (c :: cs) = none) :
    scan (c :: cs) = .ch c :: scan cs := by
  have e : scan (c :: cs) = scanF (cs.length + 1) (c :: cs) := rfl
  rw [e, scanF_succ, h]
  show Tok.ch c :: scanF cs.length cs = _
  rw [scanF_eq_scan (by omega)]

theorem flattenSource_scan (cs : List Char) : flattenSource (scan cs) = cs := by
  have key : ∀ n cs, List.length cs ≤ n → flattenSource (scan cs) = cs := by
    intro n
    induction n with
    | zero =>
      intro cs h
      have : cs = [] := List.eq_nil_of_length_eq_zero (Nat.le_zero.1 h)
      subst this
      rfl
    | succ n ih =>
      intro cs h
      cases cs with
      | nil => rfl
      | cons c cs' =>
        rcases hm : matchLink (c :: cs') with _ | ⟨l, p, t, rest⟩
        · rw [scan_cons_none hm]
          show c :: flattenSource (scan cs') = c :: cs'
          rw [ih cs' (by simp only [List.length_cons] at h; omega)]
        · rw [scan_cons_some hm]
          have heq := matchLink_some_eq hm
          have hr := matchLink_length hm
          simp only [List.length_cons] at hr h
          show linkText l p t ++ flattenSource (scan rest) = c :: cs'
          rw [ih rest (by omega)]
          exact heq.symm
  exact key cs.length cs (Nat.le_refl _)

theorem stripF_eq_flattenStripped : ∀ f cs, stripF f cs = flattenStripped (scanF f cs) := by
  intro f
  induction f with
  | zero => intro cs; rfl
  | succ f ih =>
    intro cs
    cases cs with
    | nil => rfl
    | cons c cs' =>
      show stripF (f + 1) (c :: cs') = flattenStripped (scanF (f + 1) (c :: cs'))
      rw [scanF_succ]
      unfold stripF
      rcases hm : matchLink (c :: cs') with _ | ⟨l, p, t, rest⟩
      · show c :: stripF f cs' = flattenStripped (Tok.ch c :: scanF f cs')
        rw [ih cs']
        rfl
      · show l ++ stripF f rest = flattenStripped (Tok.cit l p t :: scanF f rest)
        rw [ih rest]
        rfl

theorem flattenStripped_scan_eq_strip (cs : List Char) :
    flattenStripped (scan cs) = stripCitationSyntax cs :=
  (stripF_eq_flattenStripped cs.length cs).symm

theorem partsText_toParts (ts : List Tok) : (partsText (toParts ts)).data = flattenStripped ts := by
  induction ts with
  | nil => rfl
  | cons tk ts ih =>
    cases tk with
    | cit l p t =>
      show ((⟨l⟩ : String) ++ partsText (toParts ts)).data = l ++ flattenStripped ts
      rw [String.data_append, ih]
    | ch c =>
      show (partsText (toParts (Tok.ch c :: ts))).data = c :: flattenStripped ts
      rcases hts : toParts ts with _ | ⟨pt, ps⟩
      · have step : toParts (Tok.ch c :: ts) = [Part.lit ⟨[c]⟩] := by
          show (match toParts ts with
            | .lit s :: ps => Part.lit ⟨c :: s.data⟩ :: ps
            | ps => Part.lit ⟨[c]⟩ :: ps) = [Part.lit ⟨[c]⟩]
          rw [hts]
        rw [step]
        rw [hts] at ih
        show [c] ++ (partsText []).data = c :: flattenStripped ts
        rw [ih]
        rfl
      · cases pt with
        | lit s =>
          have step : toParts (Tok.ch c :: ts) = Part.lit ⟨c :: s.data⟩ :: ps := by
            show (match toParts ts with
              | .lit s :: ps => Part.lit ⟨c :: s.data⟩ :: ps
              | ps => Part.lit ⟨[c]⟩ :: ps) = Part.lit ⟨c :: s.data⟩ :: ps
            rw [hts]
          rw [step]
          rw [hts] at ih
          show ((⟨c :: s.data⟩ : String) ++ partsText ps).data = c :: flattenStripped ts
          rw [String.data_append]
          show c :: (s.data ++ (partsText ps).data) = c :: flattenStripped ts
          rw [← String.data_append]
          show c :: (partsText (Part.lit s :: ps)).data = c :: flattenStripped ts
          rw [ih]
        | cite l' p' n' =>
          have step : toParts (Tok.ch c :: ts) = Part.lit ⟨[c]⟩ :: Part.cite l' p' n' :: ps := by
            show (match toParts ts with
              | .lit s :: ps => Part.lit ⟨c :: s.data⟩ :: ps
              | ps => Part.lit ⟨[c]⟩ :: ps) = Part.lit ⟨[c]⟩ :: Part.cite l' p' n' :: ps
            rw [hts]
          rw [step]
          rw [hts] at ih
          show ((⟨[c]⟩ : String) ++ partsText (Part.cite l' p' n' :: ps)).data = c :: flattenStripped ts
          rw [String.data_append, ih]
          rfl

theorem scan_append_one {x : Char} (hx : x ≠ ')') :
    ∀ cs, scan (cs ++ [x]) = scan cs ++ [Tok.ch x] := by
  have key : ∀ n cs, List.length cs ≤ n → scan (cs ++ [x]) = scan cs ++ [Tok.ch x] := by
    intro n
    induction n with
    | zero =>
      intro cs h
      have : cs = [] := List.eq_nil_of_length_eq_zero (Nat.le_zero.1 h)
      subst this
      rw [scan_nil, List.nil_append, List.nil_append]
      rw [scan_cons_none (matchLink_single x), scan_nil]
    | succ n ih =>
      intro cs h
      cases cs with
      | nil =>
        rw [scan_nil, List.nil_append, List.nil_append]
        rw [scan_cons_none (matchLink_single x), scan_nil]
      | cons c cs' =>
        rcases hm : matchLink (c :: cs') with _ | ⟨l, p, t, rest⟩
        · have hm' := matchLink_append_none hx hm
          rw [List.cons_append] at hm' ⊢
          rw [scan_cons_none hm', scan_cons_none hm]
          simp only [List.length_cons] at h
          rw [ih cs' (by omega)]
          rfl
        · have hm' := matchLink_append [x] hm
          rw [List.cons_append] at hm' ⊢
          rw [scan_cons_some hm', scan_cons_some hm]
          have hr := matchLink_length hm
          simp only [List.length_cons] at hr h
          rw [ih rest (by omega)]
          rfl
  intro cs
  exact key cs.length cs (Nat.le_refl _)

theorem refsOf_append (ts us : List Tok) : refsOf (ts ++ us) = refsOf ts ++ refsOf us := by
  induction ts with
  | nil => rfl
  | cons tk ts ih =>
    cases tk with
    | ch c =>
      show refsOf (ts ++ us) = refsOf ts ++ refsOf us
      exact ih
    | cit l p t =>
      show (⟨⟨p⟩, lineOfTail t, ⟨l⟩⟩ : LineReference) :: refsOf (ts ++ us) =
        ((⟨⟨p⟩, lineOfTail t, ⟨l⟩⟩ : LineReference) :: refsOf ts) ++ refsOf us
      rw [List.cons_append, ih]

theorem flattenStripped_append (ts us : List Tok) :
    flattenStripped (ts ++ us) = flattenStripped ts ++ flattenStripped us := by
  induction ts with
  | nil => rfl
  | cons tk ts ih =>
    cases tk with
    | ch c =>
      show c :: flattenStripped (ts ++ us) = c :: flattenStripped ts ++ flattenStripped us
      rw [List.cons_append, ih]
    | cit l p t =>
      show l ++ flattenStripped (ts ++ us) = (l ++ flattenStripped ts) ++ flattenStripped us
      rw [ih, List.append_assoc]

theorem refsOf_scan_append_cr (l : List Char) :
    refsOf (scan (l ++ ['\r'])) = refsOf (scan l) := by
  rw [scan_append_one (by decide) l, refsOf_append]
  simp [refsOf]

theorem flattenStripped_scan_append_cr (l : List Char) :
    flattenStripped (scan (l ++ ['\r'])) = flattenStripped (scan l) ++ ['\r'] := by
  rw [scan_append_one (by decide) l, flattenStripped_append]
  rfl

theorem splitNl_cons (c : Char) (cs : List Char) :
    splitNl (c :: cs) =
      (match splitNl cs with
       | l :: ls => if c = '\n' then [] :: l :: ls else (c :: l) :: ls
       | [] => [[]]) := rfl

theorem splitNl_ne_nil (cs : List Char) : splitNl cs ≠ [] := by
  cases cs with
  | nil => simp [splitNl]
  | cons c cs' =>
    rw [splitNl_cons]
    rcases h : splitNl cs' with _ | ⟨l, ls⟩
    · simp
    · by_cases hc : c = '\n' <;> simp [hc]

theorem splitNl_cons_nl (cs : List Char) : splitNl ('\n' :: cs) = [] :: splitNl cs := by
  rcases h : splitNl cs with _ | ⟨l, ls⟩
  · exact absurd h (splitNl_ne_nil cs)
  · rw [splitNl_cons, h]
    show (if ('\n' : Char) = '\n' then [] :: l :: ls else ('\n' :: l) :: ls) = [] :: l :: ls
    rw [if_pos rfl]

theorem splitNl_cons_other {c : Char} (hc : ¬c = '\n') (cs : List Char) {l : List Char}
    {ls : List (List Char)} (h : splitNl cs = l :: ls) : splitNl (c :: cs) = (c :: l) :: ls := by
  rw [splitNl_cons, h]
  show (if c = '\n' then [] :: l :: ls else (c :: l) :: ls) = (c :: l) :: ls
  rw [if_neg hc]

theorem joinNl_splitNl (cs : List Char) : joinNl (splitNl cs) = cs := by
  induction cs with
  | nil => rfl
  | cons c cs' ih =>
    rcases h : splitNl cs' with _ | ⟨l, ls⟩
    · exact absurd h (splitNl_ne_nil cs')
    · rw [h] at ih
      by_cases hc : c = '\n'
      · subst hc
        rw [splitNl_cons_nl]
        rw [h]
        show '\n' :: joinNl (l :: ls) = '\n' :: cs'
        rw [ih]
      · rw [splitNl_cons_other hc cs' h]
        cases ls with
        | nil =>
          show c :: l = c :: cs'
          rw [show joinNl [l] = l from rfl] at ih
          rw [ih]
        | cons l2 ls' =>
          show (c :: l) ++ '\n' :: joinNl (l2 :: ls') = c :: cs'
          rw [List.cons_append]
          show c :: joinNl (l :: l2 :: ls') = c :: cs'
          rw [ih]

theorem crlfOf_cons_other {c : Char} (hc : ¬c = '\n') (cs : List Char) :
    crlfOf (c :: cs) = c :: crlfOf cs := by
  rw [crlfOf.eq_def]
  split
  · rename_i h
    cases h
  · rename_i cs2 h
    cases h
    exact absurd rfl hc
  · rename_i c2 cs2 h
    cases h
    rfl

theorem splitNl_crlfOf (cs : List Char) :
    splitNl (crlfOf cs) = mapExceptLast (· ++ ['\r']) (splitNl cs) := by
  induction cs with
  | nil => rfl
  | cons c cs' ih =>
    by_cases hc : c = '\n'
    · subst hc
      show splitNl ('\r' :: '\n' :: crlfOf cs') = mapExceptLast (· ++ ['\r']) (splitNl ('\n' :: cs'))
      rw [splitNl_cons_nl cs']
      rw [splitNl_cons_other (by decide) ('\n' :: crlfOf cs') (splitNl_cons_nl (crlfOf cs'))]
      rw [ih]
      rcases h : splitNl cs' with _ | ⟨l, ls⟩
      · exact absurd h (splitNl_ne_nil cs')
      · rfl
    · rw [crlfOf_cons_other hc cs']
      rcases h' : splitNl cs' with _ | ⟨l', ls'⟩
      · exact absurd h' (splitNl_ne_nil cs')
      · rw [splitNl_cons_other hc cs' h']
        rw [h'] at ih
        cases ls' with
        | nil =>
          have h4 : splitNl (crlfOf cs') = [l'] := by rw [ih]; rfl
          rw [splitNl_cons_other hc (crlfOf cs') h4]
          rfl
        | cons a b =>
          have h4 : splitNl (crlfOf cs') =
              (l' ++ ['\r']) :: mapExceptLast (· ++ ['\r']) (a :: b) := by
            rw [ih]
            rfl
          rw [splitNl_cons_other hc (crlfOf cs') h4]
          rfl

theorem scan_all_ch :
    ∀ cs : List Char, (∀ t ∈ cs.tails, matchLink t = none) → scan cs = cs.map Tok.ch := by
  intro cs
  induction cs with
  | nil => intro _; rfl
  | cons c cs' ih =>
    intro h
    have hself : matchLink (c :: cs') = none := h (c :: cs') (by simp)
    rw [scan_cons_none hself]
    rw [ih (fun t ht => h t (by rw [List.tails_cons]; exact List.mem_cons_of_mem _ ht))]
    rfl

theorem refsOf_map_ch (cs : List Char) : refsOf (cs.map Tok.ch) = [] := by
  induction cs with
  | nil => rfl
  | cons c cs' ih => simpa [refsOf] using ih

theorem toParts_map_ch (cs : List Char) :
    toParts (cs.map Tok.ch) = if cs.isEmpty then [] else [Part.lit ⟨cs⟩] := by
  induction cs with
  | nil => rfl
  | cons c cs' ih =>
    show toParts (Tok.ch c :: cs'.map Tok.ch) = _
    cases cs' with
    | nil => rfl
    | cons c2 cs'' =>
      have ih' : toParts ((c2 :: cs'').map Tok.ch) = [Part.lit ⟨c2 :: cs''⟩] := ih
      show toParts (Tok.ch c :: (c2 :: cs'').map Tok.ch) = [Part.lit ⟨c :: c2 :: cs''⟩]
      have step : toParts (Tok.ch c :: (c2 :: cs'').map Tok.ch) =
          (match toParts ((c2 :: cs'').map Tok.ch) with
           | .lit s :: ps => Part.lit ⟨c :: s.data⟩ :: ps
           | ps => Part.lit ⟨[c]⟩ :: ps) := rfl
      rw [step, ih']

theorem mapExceptLast_map_eq {β : Type} (f : List Char → List Char) (g : List Char → β)
    (h : ∀ x, g (f x) = g x) : ∀ xs, (mapExceptLast f xs).map g = xs.map g := by
  intro xs
  induction xs with
  | nil => rfl
  | cons l ls ih =>
    cases ls with
    | nil => rfl
    | cons l2 ls' =>
      show g (f l) :: (mapExceptLast f (l2 :: ls')).map g = g l :: (l2 :: ls').map g
      rw [h l, ih]

theorem mapExceptLast_map_comm (f : List Char → List Char) (g : List Char → List Char)
    (h : ∀ x, g (f x) = g x ++ ['\r']) :
    ∀ xs, (mapExceptLast f xs).map g = mapExceptLast (· ++ ['\r']) (xs.map g) := by
  intro xs
  induction xs with
  | nil => rfl
  | cons l ls ih =>
    cases ls with
    | nil => rfl
    | cons l2 ls' =>
      show g (f l) :: (mapExceptLast f (l2 :: ls')).map g =
        (g l ++ ['\r']) :: mapExceptLast (· ++ ['\r']) ((l2 :: ls').map g)
      rw [h l, ih]

end Citations

namespace Webview

theorem replaceToks_map_ch (cs : List Char) : replaceToks (cs.map Citations.Tok.ch) = cs := by
  induction cs with
  | nil => rfl
  | cons c cs' ih =>
    show c :: replaceToks (cs'.map Citations.Tok.ch) = c :: cs'
    rw [ih]

end Webview

section ClaimTheorems

open Citations

theorem list_map_eq_self {α : Type} {f : α → α} (h : ∀ a, f a = a) :
    ∀ xs : List α, xs.map f = xs := by
  intro xs
  induction xs with
  | nil => rfl
  | cons a as ih => rw [List.map_cons, h a, ih]

theorem list_map_eq_map {α β : Type} {f g : α → β} (h : ∀ a, f a = g a) :
    ∀ xs : List α, xs.map f = xs.map g := by
  intro xs
  induction xs with
  | nil => rfl
  | cons a as ih => rw [List.map_cons, List.map_cons, h a, ih]

/-- C1: for every raw assistant string, parsing line by line loses or
duplicates no text: re-flattening each line's tokens with the
citations' source text restored and re-joining the lines yields the raw
string exactly; and the extractable plain text of the parsed message
(literal segments concatenated with citation labels substituted in
place, per line) equals the raw string's lines with exactly the
bracket/paren citation syntax stripped. -/
theorem citation_parse_roundtrip (raw : String) :
    joinNl ((splitNl raw.data).map (fun l => flattenSource (scan l))) = raw.data ∧
    (parseMessage raw).map (fun pl => (partsText pl.parts).data) =
      (splitNl raw.data).map stripCitationSyntax := by
  constructor
  · rw [list_map_eq_self (fun l => flattenSource_scan l), joinNl_splitNl]
  · show ((splitNl raw.data).map (fun l => (⟨toParts (scan l), refsOf (scan l)⟩ : ParsedLine))).map
        (fun pl => (partsText pl.parts).data) = (splitNl raw.data).map stripCitationSyntax
    rw [List.map_map]
    apply list_map_eq_map
    intro l
    show (partsText (toParts (scan l))).data = stripCitationSyntax l
    rw [partsText_toParts, flattenStripped_scan_eq_strip]

set_option maxRecDepth 20000 in
/-- C2: the single-line raw text
`See [App.tsx](src/App.tsx:3) and [README](README.md) for details.`
parses to exactly one line whose literal segments are
`["See ", " and ", " for details."]` and whose citations are
App.tsx at src/App.tsx line 3 followed by README at README.md with no
line, in that order. -/
theorem parse_concrete_scenario :
    parseMessage "See [App.tsx](src/App.tsx:3) and [README](README.md) for details." =
      [⟨[.lit "See ", .cite "App.tsx" "src/App.tsx" (some 3), .lit " and ",
         .cite "README" "README.md" none, .lit " for details."],
        [⟨"src/App.tsx", some 3, "App.tsx"⟩, ⟨"README.md", none, "README"⟩]⟩] ∧
    (parseContent "See [App.tsx](src/App.tsx:3) and [README](README.md) for details.").filterMap
        (fun pt => match pt with | .lit s => some s | .cite _ _ _ => none) =
      ["See ", " and ", " for details."] ∧
    getLineReferences "See [App.tsx](src/App.tsx:3) and [README](README.md) for details." =
      [⟨"src/App.tsx", some 3, "App.tsx"⟩, ⟨"README.md", none, "README"⟩] := by
  refine ⟨by decide, by decide, by decide⟩

/-- C3: a line in which no position completes the full citation
grammar (for example bracket text with no following parenthesis, or a
parenthesized part with a non-digit after the colon) parses to zero
citations with every character kept verbatim in one literal segment;
parsing is total and never fails. -/
theorem malformed_fragments_stay_literal (line : String)
    (h : ∀ t ∈ line.data.tails, matchLink t = none) :
    getLineReferences line = [] ∧
    parseContent line = (if line.data.isEmpty then [] else [Part.lit line]) := by
  constructor
  · show refsOf (scan line.data) = []
    rw [scan_all_ch line.data h, refsOf_map_ch]
  · show toParts (scan line.data) = _
    rw [scan_all_ch line.data h, toParts_map_ch]

/-- Witness for C3 at a concrete malformed line containing both an
unfollowed bracket fragment and a colon followed by non-digits. -/
theorem malformed_fragments_stay_literal_witness :
    getLineReferences "[text] and [a](b:1x) end" = [] ∧
    parseContent "[text] and [a](b:1x) end" = [Part.lit "[text] and [a](b:1x) end"] :=
  malformed_fragments_stay_literal "[text] and [a](b:1x) end" (by decide)

/-- Counterexample to C5 as stated: the same two-line message in CRLF
form parses differently from its LF form — the first line's literal
segment retains a stray CR character. -/
theorem parse_crlf_counterexample :
    parseMessage ⟨crlfOf "a\nb".data⟩ ≠ parseMessage "a\nb" ∧
    parseMessage ⟨crlfOf "a\nb".data⟩ = [⟨[.lit "a\r"], []⟩, ⟨[.lit "b"], []⟩] ∧
    parseMessage "a\nb" = [⟨[.lit "a"], []⟩, ⟨[.lit "b"], []⟩] := by
  refine ⟨by decide, by decide, by decide⟩

/-- C5 as amended: the message split is on bare LF only, so rewriting
a message to CRLF line endings yields the same number of lines and
exactly the same citations per line, but each non-final line's
extractable literal text gains a trailing CR character; no
normalization of line endings happens before parsing. -/
theorem parse_crlf_amended (raw : String) :
    (splitNl (crlfOf raw.data)).map (fun l => refsOf (scan l)) =
      (splitNl raw.data).map (fun l => refsOf (scan l)) ∧
    (splitNl (crlfOf raw.data)).map (fun l => flattenStripped (scan l)) =
      mapExceptLast (· ++ ['\r']) ((splitNl raw.data).map (fun l => flattenStripped (scan l))) := by
  constructor
  · rw [splitNl_crlfOf]
    exact mapExceptLast_map_eq _ _ (fun x => refsOf_scan_append_cr x) _
  · rw [splitNl_crlfOf]
    exact mapExceptLast_map_comm _ _ (fun x => flattenStripped_scan_append_cr x) _

/-- Counterexample to C8 as stated: the webview renders user messages
through `parseContent`, whose citation regular expression rewrites a
bracket/paren sequence into a link span — the input is not kept
verbatim. -/
theorem user_message_parsed_counterexample :
    Webview.renderUserMessage "[text](path:3)" =
      "<span class=\"file-link\" onclick=\"openFile(\x27path\x27, 3)\">text</span>" ∧
    Webview.renderUserMessage "[text](path:3)" ≠ "[text](path:3)" := by
  refine ⟨by decide, by decide⟩

/-- C8 as amended: user messages are passed through the inline
citation replacement rather than stored raw — only a user message in
which no position completes the citation grammar is rendered verbatim;
bracket/paren citations in user messages are extracted and replaced by
label spans. -/
theorem user_message_citation_free_verbatim (content : String)
    (h : ∀ t ∈ content.data.tails, matchLink t = none) :
    Webview.renderUserMessage content = content := by
  show (⟨Webview.replaceToks (scan content.data)⟩ : String) = content
  rw [scan_all_ch content.data h, Webview.replaceToks_map_ch]

/-- Witness for the amended C8 at a citation-free user message. -/
theorem user_message_citation_free_verbatim_witness :
    Webview.renderUserMessage "hello [world] (no:citation x)" = "hello [world] (no:citation x)" :=
  user_message_citation_free_verbatim "hello [world] (no:citation x)" (by decide)

set_option maxRecDepth 40000 in
/-- Counterexample to C4 as stated: with the backend call failed, the
prompt "summarize" matches none of the fallback's routing keywords and
reaches the general response, which — composed with the error path's
empty workspace list and no current file — contains no well-formed
citation at all. -/
theorem fallback_summarize_counterexample :
    messageCitations (Extension.handleUserMessage (.error "network error") "summarize") = [] := by
  decide

set_option maxRecDepth 40000 in
/-- C4 as amended: when the backend call fails, the chat turn always
receives the offline-mode banner followed by the deterministic local
fallback text and no exception; for the prompt "summarize" the
fallback routes to the general response, which in this error path
(empty workspace list, no current file) contains no citation. -/
theorem fallback_summarize_amended (e : String) :
    Extension.handleUserMessage (.error e) "summarize" =
      "‚ö†Ô∏è Backend unavailable. Using offline mode:\n\n" ++
        Extension.generateGeneralResponse "summarize" [] none ∧
    messageCitations (Extension.handleUserMessage (.error e) "summarize") = [] := by
  have h1 : Extension.handleUserMessage (.error e) "summarize" =
      "‚ö†Ô∏è Backend unavailable. Using offline mode:\n\n" ++
        Extension.generateAIResponse "summarize" [] none := rfl
  rw [h1]
  refine ⟨by decide, by decide⟩

end ClaimTheorems

namespace Str

theorem lexLe_total : ∀ a b : List Char, lexLe a b = true ∨ lexLe b a = true := by
  intro a
  induction a with
  | nil => intro b; left; rfl
  | cons x xs ih =>
    intro b
    cases b with
    | nil => right; rfl
    | cons y ys =>
      show (decide (x.toNat < y.toNat) || (decide (x.toNat = y.toNat) && lexLe xs ys)) = true ∨
        (decide (y.toNat < x.toNat) || (decide (y.toNat = x.toNat) && lexLe ys xs)) = true
      rcases Nat.lt_trichotomy x.toNat y.toNat with h | h | h
      · left; simp [h]
      · rcases ih ys with h2 | h2
        · left; simp [h, h2]
        · right; simp [h.symm, h2]
      · right; simp [h]

theorem lexLe_trans : ∀ a b c : List Char, lexLe a b = true → lexLe b c = true → lexLe a c = true := by
  intro a
  induction a with
  | nil => intro b c _ _; rfl
  | cons x xs ih =>
    intro b c hab hbc
    cases b with
    | nil => simp [lexLe] at hab
    | cons y ys =>
      cases c with
      | nil => simp [lexLe] at hbc
      | cons z zs =>
        show (decide (x.toNat < z.toNat) || (decide (x.toNat = z.toNat) && lexLe xs zs)) = true
        have hab' : x.toNat < y.toNat ∨ (x.toNat = y.toNat ∧ lexLe xs ys = true) := by
          simpa [lexLe, Bool.or_eq_true, Bool.and_eq_true] using hab
        have hbc' : y.toNat < z.toNat ∨ (y.toNat = z.toNat ∧ lexLe ys zs = true) := by
          simpa [lexLe, Bool.or_eq_true, Bool.and_eq_true] using hbc
        rcases hab' with h1 | ⟨h1, h1'⟩
        · rcases hbc' with h2 | ⟨h2, -⟩
          · simp [Nat.lt_trans h1 h2]
          · simp [h2 ▸ h1]
        · rcases hbc' with h2 | ⟨h2, h2'⟩
          · simp [h1 ▸ h2]
          · have := ih ys zs h1' h2'
            simp [h1.trans h2, this]

end Str

namespace LLMService

theorem fileLe_total : ∀ a b : ScoredFile, fileLe a b = true ∨ fileLe b a = true := by
  intro a b
  unfold fileLe
  by_cases h1 : a.score = b.score
  · rw [if_pos h1, if_pos h1.symm]
    by_cases h2 : a.size = b.size
    · rw [if_pos h2, if_pos h2.symm]
      exact Str.lexLe_total _ _
    · rw [if_neg h2, if_neg (fun h => h2 h.symm)]
      rcases Nat.lt_or_ge a.size b.size with h | h
      · right; simpa using h
      · left
        simp only [decide_eq_true_eq]
        omega
  · rw [if_neg h1, if_neg (fun h => h1 h.symm)]
    rcases Nat.lt_or_ge a.score b.score with h | h
    · right; simpa using h
    · left
      simp only [decide_eq_true_eq]
      omega

theorem fileLe_trans : ∀ a b c : ScoredFile,
    fileLe a b = true → fileLe b c = true → fileLe a c = true := by
  intro a b c hab hbc
  unfold fileLe at hab hbc ⊢
  by_cases h1 : a.score = b.score
  · rw [if_pos h1] at hab
    by_cases h2 : b.score = c.score
    · rw [if_pos h2] at hbc
      rw [if_pos (h1.trans h2)]
      by_cases h3 : a.size = b.size
      · rw [if_pos h3] at hab
        by_cases h4 : b.size = c.size
        · rw [if_pos h4] at hbc
          rw [if_pos (h3.trans h4)]
          exact Str.lexLe_trans _ _ _ hab hbc
        · rw [if_neg h4] at hbc
          rw [if_neg (h3 ▸ h4)]
          simpa [h3] using hbc
      · rw [if_neg h3] at hab
        by_cases h4 : b.size = c.size
        · rw [if_neg (fun h => h3 (h.trans h4.symm))]
          simp only [decide_eq_true_eq] at hab ⊢
          omega
        · rw [if_neg h4] at hbc
          simp only [decide_eq_true_eq] at hab hbc
          rw [if_neg (by omega)]
          simp only [decide_eq_true_eq]
          omega
    · rw [if_neg h2] at hbc
      rw [if_neg (h1 ▸ h2)]
      simpa [h1] using hbc
  · rw [if_neg h1] at hab
    by_cases h2 : b.score = c.score
    · rw [if_neg (fun h => h1 (h.trans h2.symm))]
      simp only [decide_eq_true_eq] at hab ⊢
      omega
    · rw [if_neg h2] at hbc
      simp only [decide_eq_true_eq] at hab hbc
      rw [if_neg (by omega)]
      simp only [decide_eq_true_eq]
      omega

theorem fileLe_iff (a b : ScoredFile) : fileLe a b = true ↔ FileOrd a b := by
  unfold fileLe FileOrd
  by_cases h1 : a.score = b.score
  · rw [if_pos h1]
    by_cases h2 : a.size = b.size
    · rw [if_pos h2]
      constructor
      · intro h; exact Or.inr ⟨h1, Or.inr ⟨h2, h⟩⟩
      · rintro (h | ⟨-, h | ⟨-, h⟩⟩)
        · omega
        · omega
        · exact h
    · rw [if_neg h2]
      constructor
      · intro h
        simp only [decide_eq_true_eq] at h
        exact Or.inr ⟨h1, Or.inl h⟩
      · rintro (h | ⟨-, h | ⟨h, -⟩⟩)
        · omega
        · simpa using h
        · exact absurd h h2
  · rw [if_neg h1]
    constructor
    · intro h
      simp only [decide_eq_true_eq] at h
      exact Or.inl h
    · rintro (h | ⟨h, -⟩)
      · simpa using h
      · exact absurd h h1

end LLMService

section ClaimTheorems2

open LLMService

/-- C6: the reference ranker keeps at most five entries, in descending
score order with ties broken by larger content size and then by
lexicographically smaller path; being a pure function of its input, it
is deterministic (two calls on the same input yield the same list). -/
theorem reference_ranker_spec (files : List FileRec) :
    (buildKeyFileReferenceList files).length ≤ 5 ∧
    List.Chain' FileOrd (topFiles files) ∧
    buildKeyFileReferenceList files = (topFiles files).map bulletOf := by
  refine ⟨?_, ?_, rfl⟩
  · show ((topFiles files).map bulletOf).length ≤ 5
    rw [List.length_map]
    show (((scoredFiles files).insertionSort (fun a b => fileLe a b)).take 5).length ≤ 5
    rw [List.length_take]
    exact inf_le_left
  · haveI : IsTotal ScoredFile (fun a b => (fileLe a b : Prop)) := ⟨fun a b => fileLe_total a b⟩
    haveI : IsTrans ScoredFile (fun a b => (fileLe a b : Prop)) :=
      ⟨fun a b c => fileLe_trans a b c⟩
    have hs := List.sorted_insertionSort (fun a b => (fileLe a b : Prop)) (scoredFiles files)
    have hp : List.Pairwise (fun a b => (fileLe a b : Prop)) (topFiles files) :=
      List.Pairwise.sublist (List.take_sublist 5 _) hs
    have := hp.chain'
    exact List.Chain'.imp (fun a b h => (fileLe_iff a b).1 h) this

theorem filterMap_filter_of_none {α β : Type} (g : α → Option β) (p : α → Bool)
    (h : ∀ a, p a = false → g a = none) :
    ∀ l : List α, (l.filter p).filterMap g = l.filterMap g := by
  intro l
  induction l with
  | nil => rfl
  | cons a as ih =>
    by_cases hp : p a = true
    · rw [List.filter_cons_of_pos hp, List.filterMap_cons, List.filterMap_cons]
      cases g a <;> simp [ih]
    · rw [List.filter_cons_of_neg (by simpa using hp), List.filterMap_cons]
      rw [h a (by simpa using hp)]
      exact ih

/-- C10: the fallback reference-list composer is total — records with
a missing file name or missing content are filtered out, never an
error — and every bullet it returns is formatted with a positive line
number (a non-positive representative line is replaced by 1). -/
theorem reference_list_safe (files : List FileRec) :
    buildKeyFileReferenceList files = buildKeyFileReferenceList (files.filter validRec) ∧
    ∀ s ∈ buildKeyFileReferenceList files, ∃ f li d, 0 < li ∧
      s = "• [" ++ f ++ "](" ++ f ++ ":" ++ toString li ++ ") - " ++ d := by
  constructor
  · have key : scoredFiles (files.filter validRec) = scoredFiles files := by
      apply filterMap_filter_of_none
      intro f hf
      unfold validRec at hf
      rcases f with ⟨fn?, c?⟩
      rcases fn? with _ | fn
      · rfl
      · rcases c? with _ | c
        · rfl
        · simp only [Bool.not_eq_true] at hf
          have hfn : fn = "" := by simpa using hf
          show (if fn = "" then none else some _) = none
          rw [if_pos hfn]
    show (topFiles files).map bulletOf = (topFiles (files.filter validRec)).map bulletOf
    unfold topFiles
    rw [key]
  · intro s hs
    obtain ⟨f, -, hfe⟩ := List.mem_map.1 hs
    refine ⟨f.filename, (if 0 < f.lineNumber then f.lineNumber else 1), f.description, ?_, ?_⟩
    · by_cases h : 0 < f.lineNumber
      · rw [if_pos h]; exact h
      · rw [if_neg h]; exact Nat.one_pos
    · exact hfe.symm

/-- Witness for C10: applying the theorem to a concrete record list
with one valid and one invalid record and to the single bullet it
produces. -/
theorem reference_list_safe_witness :
    ∃ f li d, 0 < li ∧ "• [a.ts](a.ts:1) - TypeScript module" =
      "• [" ++ f ++ "](" ++ f ++ ":" ++ toString li ++ ") - " ++ d :=
  (reference_list_safe [⟨some "a.ts", some "const x = 1;"⟩, ⟨none, some "x"⟩]).2
    "• [a.ts](a.ts:1) - TypeScript module" (by decide)

end ClaimTheorems2

section ClaimTheorems3

/-- Auxiliary equivalence: the walking loop of
`getRepresentativeLineNumber` computes the 1-based index of the first
meaningful line of the remaining lines, offset by the number of lines
already consumed, with 1 as the default when every line is skipped. -/
theorem repLineGo_eq_firstMeaningful :
    ∀ (ls : List (List Char)) (i : Nat) (inB : Bool),
      LLMService.repLineGo ls i inB =
        (match SpecModel.firstMeaningful true ls inB with
         | some j => i + j
         | none => 1) := by
  intro ls
  induction ls with
  | nil => intro i inB; rfl
  | cons line ls ih =>
    intro i inB
    have hskip : ∀ st : Bool,
        LLMService.repLineGo ls (i + 1) st =
          (match (SpecModel.firstMeaningful true ls st).map (· + 1) with
           | some j => i + j
           | none => 1) := by
      intro st
      rw [ih (i + 1) st]
      rcases SpecModel.firstMeaningful true ls st with _ | j
      · rfl
      · show (i + 1) + j = i + (j + 1)
        omega
    have hgo : LLMService.repLineGo (line :: ls) i inB =
        (if (Str.trimChars line).isEmpty then LLMService.repLineGo ls (i + 1) inB
         else if inB then
           LLMService.repLineGo ls (i + 1) (!Str.hasSub (Str.trimChars line) "*/".data)
         else if Str.beginsWith (Str.trimChars line) "/*".data then
           LLMService.repLineGo ls (i + 1) (!Str.hasSub (Str.trimChars line) "*/".data)
         else if Str.beginsWith (Str.trimChars line) "//".data ||
             Str.beginsWith (Str.trimChars line) "*".data then
           LLMService.repLineGo ls (i + 1) inB
         else if Str.beginsWith (Str.trimChars line) "import ".data ||
             Str.beginsWith (Str.trimChars line) "export \x7b".data then
           LLMService.repLineGo ls (i + 1) inB
         else i + 1) := rfl
    have hfm : SpecModel.firstMeaningful true (line :: ls) inB =
        (if SpecModel.skippableLine true (Str.trimChars line) inB then
           (SpecModel.firstMeaningful true ls
             (SpecModel.nextBlockState (Str.trimChars line) inB)).map (· + 1)
         else some 1) := rfl
    rw [hgo, hfm]
    generalize ht : Str.trimChars line = t
    by_cases h1 : (t.isEmpty : Bool) = true
    · rw [if_pos h1]
      have hsk : SpecModel.skippableLine true t inB = true := by
        simp [SpecModel.skippableLine, h1]
      have hnb : SpecModel.nextBlockState t inB = inB := by
        simp [SpecModel.nextBlockState, h1]
      rw [hsk, if_pos rfl, hnb]
      exact hskip inB
    · rw [if_neg (by simpa using h1)]
      by_cases h2 : inB = true
      · rw [if_pos h2]
        have hsk : SpecModel.skippableLine true t inB = true := by
          simp [SpecModel.skippableLine, h2]
        have hnb : SpecModel.nextBlockState t inB = !Str.hasSub t "*/".data := by
          simp [SpecModel.nextBlockState, h1, h2]
        rw [hsk, if_pos rfl, hnb]
        exact hskip _
      · rw [if_neg (by simpa using h2)]
        have hb2 : inB = false := by simpa using h2
        by_cases h3 : Str.beginsWith t "/*".data = true
        · rw [if_pos h3]
          have hsk : SpecModel.skippableLine true t inB = true := by
            simp [SpecModel.skippableLine, h3]
          have hnb : SpecModel.nextBlockState t inB = !Str.hasSub t "*/".data := by
            simp [SpecModel.nextBlockState, h1, hb2, h3]
          rw [hsk, if_pos rfl, hnb]
          exact hskip _
        · rw [if_neg (by simpa using h3)]
          by_cases h4 : (Str.beginsWith t "//".data || Str.beginsWith t "*".data) = true
          · rw [if_pos h4]
            have hsk : SpecModel.skippableLine true t inB = true := by
              rcases Bool.or_eq_true_iff.1 h4 with h | h <;>
                simp [SpecModel.skippableLine, h]
            have hnb : SpecModel.nextBlockState t inB = inB := by
              simp [SpecModel.nextBlockState, h1, hb2, h3]
            rw [hsk, if_pos rfl, hnb]
            exact hskip _
          · rw [if_neg (by simpa using h4)]
            by_cases h5 : (Str.beginsWith t "import ".data ||
                Str.beginsWith t "export \x7b".data) = true
            · rw [if_pos h5]
              have hsk : SpecModel.skippableLine true t inB = true := by
                rcases Bool.or_eq_true_iff.1 h5 with h | h <;>
                  simp [SpecModel.skippableLine, h]
              have hnb : SpecModel.nextBlockState t inB = inB := by
                simp [SpecModel.nextBlockState, h1, hb2, h3]
              rw [hsk, if_pos rfl, hnb]
              exact hskip _
            · rw [if_neg (by simpa using h5)]
              have hsk : SpecModel.skippableLine true t inB = false := by
                simp only [Bool.or_eq_true, not_or, Bool.not_eq_true] at h4 h5
                simp [SpecModel.skippableLine, h1, hb2, h3, h4.1, h4.2, h5.1, h5.2]
              rw [hsk]
              show i + 1 = _
              rw [if_neg (by simp [hsk])]

/-- Counterexample to C7 as stated: a line whose trimmed form starts
with `*` outside any block comment is also skipped by the code, which
the claim's category list does not allow. -/
theorem representative_line_star_counterexample :
    LLMService.getRepresentativeLineNumber "* note\nconst a = 1;" = 2 ∧
    SpecModel.pickRepresentativeLine false "* note\nconst a = 1;" = 1 ∧ (2 : Nat) ≠ 1 := by
  refine ⟨by decide, by decide, by decide⟩

/-- C7 as amended: `getRepresentativeLineNumber` returns the 1-based
index of the first line that is not blank, not a `//` comment, not
inside or starting a block comment, not a line whose trimmed form
starts with `*`, and not an import or `export {` re-export, with 1
when every line is skipped; on the three-line header/import/const
example it returns 3. -/
theorem representative_line_amended (content : String) :
    LLMService.getRepresentativeLineNumber content =
      SpecModel.pickRepresentativeLine true content ∧
    LLMService.getRepresentativeLineNumber "// header\nimport x from \x27y\x27\nconst z = 1;" = 3 := by
  constructor
  · unfold LLMService.getRepresentativeLineNumber SpecModel.pickRepresentativeLine
    by_cases h : content.data.isEmpty = true
    · rw [if_pos h]
      have : content.data = [] := by simpa using h
      rw [this]
      rfl
    · rw [if_neg (by simpa using h)]
      rw [repLineGo_eq_firstMeaningful (Str.splitCrNl content.data) 0 false]
      rcases SpecModel.firstMeaningful true (Str.splitCrNl content.data) false with _ | j
      · rfl
      · show 0 + j = j
        omega
  · decide

end ClaimTheorems3

namespace Server

theorem setKey_ne_nil : ∀ (m : List (String × TreeNode)) (k : String) (v : TreeNode),
    setKey m k v ≠ []
  | [], k, v => by simp [setKey]
  | (k', v') :: m, k, v => by
    show (if k' = k then (k, v) :: m else (k', v') :: setKey m k v) ≠ []
    split <;> simp

theorem getKey_setKey_self : ∀ (m : List (String × TreeNode)) (k : String) (v : TreeNode),
    getKey (setKey m k v) k = some v
  | [], k, v => by
    show (if k = k then some v else getKey [] k) = some v
    rw [if_pos rfl]
  | (k', v') :: m, k, v => by
    show getKey (if k' = k then (k, v) :: m else (k', v') :: setKey m k v) k = some v
    by_cases h : k' = k
    · rw [if_pos h]
      show (if k = k then some v else getKey m k) = some v
      rw [if_pos rfl]
    · rw [if_neg h]
      show (if k' = k then some v' else getKey (setKey m k v) k) = some v
      rw [if_neg h]
      exact getKey_setKey_self m k v

theorem getKey_setKey_other : ∀ (m : List (String × TreeNode)) (k j : String) (v : TreeNode),
    j ≠ k → getKey (setKey m k v) j = getKey m j
  | [], k, j, v => by
    intro hj
    show (if k = j then some v else getKey [] j) = getKey [] j
    rw [if_neg (fun h => hj h.symm)]
  | (k', v') :: m, k, j, v => by
    intro hj
    show getKey (if k' = k then (k, v) :: m else (k', v') :: setKey m k v) j =
      (if k' = j then some v' else getKey m j)
    by_cases h : k' = k
    · rw [if_pos h]
      show (if k = j then some v else getKey m j) = (if k' = j then some v' else getKey m j)
      rw [if_neg (fun he => hj he.symm), if_neg (fun he => hj (he.symm.trans h))]
    · rw [if_neg h]
      show (if k' = j then some v' else getKey (setKey m k v) j) = (if k' = j then some v' else getKey m j)
      by_cases h2 : k' = j
      · rw [if_pos h2, if_pos h2]
      · rw [if_neg h2, if_neg h2]
        exact getKey_setKey_other m k j v hj

theorem fileAt_cons_nil (m : List (String × TreeNode)) (k : String) :
    fileAt m [k] = (match getKey m k with
      | some (.file _ _ _ _) => true
      | _ => false) := rfl

theorem fileAt_cons_cons (m : List (String × TreeNode)) (k k2 : String) (ks : List String) :
    fileAt m (k :: k2 :: ks) = (match getKey m k with
      | some (.dir cs) => fileAt cs (k2 :: ks)
      | _ => false) := rfl

theorem fileAt_congr_head {m m' : List (String × TreeNode)} {k : String}
    (h : getKey m' k = getKey m k) :
    ∀ ks, fileAt m' (k :: ks) = fileAt m (k :: ks) := by
  intro ks
  cases ks with
  | nil => rw [fileAt_cons_nil, fileAt_cons_nil, h]
  | cons k2 ks' => rw [fileAt_cons_cons, fileAt_cons_cons, h]

theorem keysUnique_cons (k : String) (v : TreeNode) (m : List (String × TreeNode)) :
    keysUnique ((k, v) :: m) =
      (!(m.any (fun kv => kv.1 = k)) && nodeKeysUnique v && keysUnique m) := rfl

theorem anyKey_setKey : ∀ (m : List (String × TreeNode)) (k j : String) (v : TreeNode),
    ((setKey m k v).any (fun kv => kv.1 = j) = true) ↔
      (m.any (fun kv => kv.1 = j) = true ∨ k = j)
  | [], k, j, v => by
    show ([(k, v)].any (fun kv => kv.1 = j) = true) ↔ _
    simp
  | (k', v') :: m, k, j, v => by
    show ((if k' = k then (k, v) :: m else (k', v') :: setKey m k v).any (fun kv => kv.1 = j) = true) ↔ _
    by_cases h : k' = k
    · rw [if_pos h]
      subst h
      simp
      tauto
    · rw [if_neg h]
      have ih := anyKey_setKey m k j v
      simp only [List.any_cons] at *
      simp only [Bool.or_eq_true] at *
      constructor
      · rintro (hh | hh)
        · exact Or.inl (Or.inl hh)
        · rcases ih.1 hh with hh2 | hh2
          · exact Or.inl (Or.inr hh2)
          · exact Or.inr hh2
      · rintro (hh | hh)
        · rcases hh with hh2 | hh2
          · exact Or.inl hh2
          · exact Or.inr (ih.2 (Or.inl hh2))
        · exact Or.inr (ih.2 (Or.inr hh))

theorem keysUnique_getKey : ∀ (m : List (String × TreeNode)) (k : String) (v : TreeNode),
    keysUnique m = true → getKey m k = some v → nodeKeysUnique v = true
  | [], k, v => by
    intro _ hg
    simp [getKey] at hg
  | (k', v') :: m, k, v => by
    intro hu hg
    rw [keysUnique_cons] at hu
    simp only [Bool.and_eq_true] at hu
    show nodeKeysUnique v = true
    by_cases h : k' = k
    · have : getKey ((k', v') :: m) k = some v' := by
        show (if k' = k then some v' else getKey m k) = some v'
        rw [if_pos h]
      rw [this] at hg
      cases hg
      exact hu.1.2
    · have : getKey ((k', v') :: m) k = getKey m k := by
        show (if k' = k then some v' else getKey m k) = getKey m k
        rw [if_neg h]
      rw [this] at hg
      exact keysUnique_getKey m k v hu.2 hg

theorem keysUnique_setKey : ∀ (m : List (String × TreeNode)) (k : String) (v : TreeNode),
    keysUnique m = true → nodeKeysUnique v = true → keysUnique (setKey m k v) = true
  | [], k, v => by
    intro _ hv
    show keysUnique [(k, v)] = true
    rw [keysUnique_cons]
    simp [hv, keysUnique]
  | (k', v') :: m, k, v => by
    intro hu hv
    rw [keysUnique_cons] at hu
    simp only [Bool.and_eq_true] at hu
    show keysUnique (if k' = k then (k, v) :: m else (k', v') :: setKey m k v) = true
    by_cases h : k' = k
    · rw [if_pos h]
      rw [keysUnique_cons]
      simp only [Bool.and_eq_true]
      exact ⟨⟨by rw [← h]; exact hu.1.1, hv⟩, hu.2⟩
    · rw [if_neg h]
      rw [keysUnique_cons]
      simp only [Bool.and_eq_true]
      refine ⟨⟨?_, hu.1.2⟩, keysUnique_setKey m k v hu.2 hv⟩
      simp only [Bool.not_eq_true']
      by_contra hc
      simp only [Bool.not_eq_false] at hc
      rcases (anyKey_setKey m k k' v).1 hc with hh | hh
      · have := hu.1.1
        simp only [Bool.not_eq_true'] at this
        rw [hh] at this
        cases this
      · exact h hh.symm

theorem dirsHaveFileL_cons (k : String) (v : TreeNode) (m : List (String × TreeNode)) :
    dirsHaveFileL ((k, v) :: m) = (dirsHaveFile v && dirsHaveFileL m) := rfl

theorem dirsHaveFileL_getKey : ∀ (m : List (String × TreeNode)) (k : String) (v : TreeNode),
    dirsHaveFileL m = true → getKey m k = some v → dirsHaveFile v = true
  | [], k, v => by
    intro _ hg
    simp [getKey] at hg
  | (k', v') :: m, k, v => by
    intro hd hg
    rw [dirsHaveFileL_cons] at hd
    simp only [Bool.and_eq_true] at hd
    by_cases h : k' = k
    · have : getKey ((k', v') :: m) k = some v' := by
        show (if k' = k then some v' else getKey m k) = some v'
        rw [if_pos h]
      rw [this] at hg
      cases hg
      exact hd.1
    · have : getKey ((k', v') :: m) k = getKey m k := by
        show (if k' = k then some v' else getKey m k) = getKey m k
        rw [if_neg h]
      rw [this] at hg
      exact dirsHaveFileL_getKey m k v hd.2 hg

theorem dirsHaveFileL_setKey : ∀ (m : List (String × TreeNode)) (k : String) (v : TreeNode),
    dirsHaveFileL m = true → dirsHaveFile v = true → dirsHaveFileL (setKey m k v) = true
  | [], k, v => by
    intro _ hv
    show dirsHaveFileL [(k, v)] = true
    rw [dirsHaveFileL_cons]
    simp [hv, dirsHaveFileL]
  | (k', v') :: m, k, v => by
    intro hd hv
    rw [dirsHaveFileL_cons] at hd
    simp only [Bool.and_eq_true] at hd
    show dirsHaveFileL (if k' = k then (k, v) :: m else (k', v') :: setKey m k v) = true
    by_cases h : k' = k
    · rw [if_pos h, dirsHaveFileL_cons]
      simp [hv, hd.2]
    · rw [if_neg h, dirsHaveFileL_cons]
      simp [hd.1, dirsHaveFileL_setKey m k v hd.2 hv]

theorem insertParts_singleton (m : List (String × TreeNode)) (part : String) (content : String) :
    insertParts m [part] content = some (setKey m part (fileNode part content)) := rfl

theorem insertParts_cons2 (m : List (String × TreeNode)) (part p2 : String) (rest : List String)
    (content : String) :
    insertParts m (part :: p2 :: rest) content =
      (match getKey m part with
       | some (.dir cs) => Option.bind (insertParts cs (p2 :: rest) content)
           (fun cs' => some (setKey m part (.dir cs')))
       | some (.file _ _ _ _) => none
       | none => Option.bind (insertParts [] (p2 :: rest) content)
           (fun cs' => some (setKey m part (.dir cs')))) := rfl

theorem fileAt_nil_left : ∀ q : List String, fileAt [] q = false
  | [] => rfl
  | [_] => rfl
  | _ :: _ :: _ => rfl

theorem insertParts_isSome : ∀ (parts : List String) (m : List (String × TreeNode)) (content : String),
    parts ≠ [] →
    (∀ q, fileAt m q = true → ¬(q <+: parts ∧ q ≠ parts)) →
    ∃ cs', insertParts m parts content = some cs'
  | [], _, _ => by intro h _; exact absurd rfl h
  | [part], m, content => by
    intro _ _
    exact ⟨_, insertParts_singleton m part content⟩
  | part :: p2 :: rest, m, content => by
    intro _ hpf
    rw [insertParts_cons2]
    rcases hg : getKey m part with _ | v
    · obtain ⟨cs', hcs'⟩ := insertParts_isSome (p2 :: rest) [] content (by simp)
        (fun q hq => by rw [fileAt_nil_left] at hq; cases hq)
      refine ⟨setKey m part (.dir cs'), ?_⟩
      show (insertParts [] (p2 :: rest) content).bind
          (fun cs' => some (setKey m part (TreeNode.dir cs'))) = _
      rw [hcs']
      rfl
    · rcases v with ⟨sz, e, pv, fc⟩ | cs
      · exfalso
        have hf : fileAt m [part] = true := by
          rw [fileAt_cons_nil, hg]
        exact hpf [part] hf ⟨by simp [List.cons_prefix_cons], by simp⟩
      · obtain ⟨cs', hcs'⟩ := insertParts_isSome (p2 :: rest) cs content (by simp)
          (fun q hq => by
            intro ⟨hq1, hq2⟩
            cases q with
            | nil =>
              rw [show fileAt cs [] = false from rfl] at hq
              cases hq
            | cons q1 qs =>
              have hfm : fileAt m (part :: q1 :: qs) = true := by
                rw [fileAt_cons_cons, hg]
                exact hq
              exact hpf (part :: q1 :: qs) hfm
                ⟨List.cons_prefix_cons.2 ⟨rfl, hq1⟩, by simpa using hq2⟩)
        refine ⟨setKey m part (.dir cs'), ?_⟩
        show (insertParts cs (p2 :: rest) content).bind
            (fun cs' => some (setKey m part (TreeNode.dir cs'))) = _
        rw [hcs']
        rfl

theorem insertParts_cons2_inv {m : List (String × TreeNode)} {part p2 : String}
    {rest : List String} {content : String} {out : List (String × TreeNode)}
    (h : insertParts m (part :: p2 :: rest) content = some out) :
    ∃ inner cs', insertParts inner (p2 :: rest) content = some cs' ∧
      out = setKey m part (.dir cs') ∧
      ((getKey m part = some (.dir inner)) ∨ (getKey m part = none ∧ inner = [])) := by
  rw [insertParts_cons2] at h
  rcases hg : getKey m part with _ | v
  · rw [hg] at h
    have h' : (insertParts [] (p2 :: rest) content).bind
        (fun cs' => some (setKey m part (TreeNode.dir cs'))) = some out := h
    obtain ⟨cs', hcs', hout⟩ := Option.bind_eq_some.1 h'
    cases hout
    exact ⟨[], cs', hcs', rfl, Or.inr ⟨rfl, rfl⟩⟩
  · rw [hg] at h
    rcases v with ⟨sz, e, pv, fc⟩ | cs
    · exact absurd h (by simp)
    · have h' : (insertParts cs (p2 :: rest) content).bind
          (fun cs' => some (setKey m part (TreeNode.dir cs'))) = some out := h
      obtain ⟨cs', hcs', hout⟩ := Option.bind_eq_some.1 h'
      exact ⟨cs, cs', hcs', (Option.some.inj hout).symm, Or.inl rfl⟩

theorem insertParts_fileAt_self : ∀ (parts : List String) (m : List (String × TreeNode))
    (content : String) (out : List (String × TreeNode)), parts ≠ [] →
    insertParts m parts content = some out → fileAt out parts = true
  | [], _, _, _ => by intro h _; exact absurd rfl h
  | [part], m, content, out => by
    intro _ h
    rw [insertParts_singleton] at h
    cases Option.some.inj h
    rw [fileAt_cons_nil, getKey_setKey_self]
    rfl
  | part :: p2 :: rest, m, content, out => by
    intro _ h
    obtain ⟨inner, cs', hcs', hout, -⟩ := insertParts_cons2_inv h
    subst hout
    rw [fileAt_cons_cons, getKey_setKey_self]
    exact insertParts_fileAt_self (p2 :: rest) inner content cs' (by simp) hcs'

theorem insertParts_fileAt_new : ∀ (parts : List String) (m : List (String × TreeNode))
    (content : String) (out : List (String × TreeNode)) (q : List String),
    insertParts m parts content = some out → fileAt out q = true →
    fileAt m q = true ∨ q = parts
  | [], m, content, out, q => by
    intro h hq
    have : m = out := Option.some.inj h
    subst this
    exact Or.inl hq
  | [part], m, content, out, q => by
    intro h hq
    rw [insertParts_singleton] at h
    cases Option.some.inj h
    cases q with
    | nil =>
      rw [show fileAt (setKey m part (fileNode part content)) [] = false from rfl] at hq
      cases hq
    | cons k ks =>
      by_cases hk : k = part
      · subst hk
        cases ks with
        | nil => exact Or.inr rfl
        | cons k2 ks' =>
          rw [fileAt_cons_cons, getKey_setKey_self] at hq
          have : fileAt (setKey m k (fileNode k content)) (k :: k2 :: ks') = false := by
            rw [fileAt_cons_cons, getKey_setKey_self]
            rfl
          rw [fileAt_cons_cons, getKey_setKey_self] at this
          rw [this] at hq
          cases hq
      · rw [fileAt_congr_head (getKey_setKey_other m part k _ hk) ks] at hq
        exact Or.inl hq
  | part :: p2 :: rest, m, content, out, q => by
    intro h hq
    obtain ⟨inner, cs', hcs', hout, hbranch⟩ := insertParts_cons2_inv h
    subst hout
    cases q with
    | nil =>
      rw [show fileAt (setKey m part (TreeNode.dir cs')) [] = false from rfl] at hq
      cases hq
    | cons k ks =>
      by_cases hk : k = part
      · subst hk
        cases ks with
        | nil =>
          rw [fileAt_cons_nil, getKey_setKey_self] at hq
          cases hq
        | cons k2 ks' =>
          rw [fileAt_cons_cons, getKey_setKey_self] at hq
          rcases insertParts_fileAt_new (p2 :: rest) inner content cs' (k2 :: ks') hcs' hq with
            hin | heq
          · rcases hbranch with hb | ⟨hb, hb2⟩
            · left
              rw [fileAt_cons_cons, hb]
              exact hin
            · subst hb2
              rw [fileAt_nil_left] at hin
              cases hin
          · right
            rw [heq]
      · rw [fileAt_congr_head (getKey_setKey_other m part k _ hk) ks] at hq
        exact Or.inl hq

theorem insertParts_fileAt_preserve : ∀ (parts : List String) (m : List (String × TreeNode))
    (content : String) (out : List (String × TreeNode)) (q : List String),
    insertParts m parts content = some out → ¬(parts <+: q) →
    fileAt out q = fileAt m q
  | [], m, content, out, q => by
    intro _ hpre
    exact absurd List.nil_prefix hpre
  | [part], m, content, out, q => by
    intro h hpre
    rw [insertParts_singleton] at h
    cases Option.some.inj h
    cases q with
    | nil => rfl
    | cons k ks =>
      by_cases hk : part = k
      · subst hk
        exact absurd (List.cons_prefix_cons.2 ⟨rfl, List.nil_prefix⟩) hpre
      · exact fileAt_congr_head (getKey_setKey_other m part k _ (fun he => hk he.symm)) ks
  | part :: p2 :: rest, m, content, out, q => by
    intro h hpre
    obtain ⟨inner, cs', hcs', hout, hbranch⟩ := insertParts_cons2_inv h
    subst hout
    cases q with
    | nil => rfl
    | cons k ks =>
      by_cases hk : part = k
      · subst hk
        have hpre' : ¬(p2 :: rest <+: ks) := fun hp =>
          hpre (List.cons_prefix_cons.2 ⟨rfl, hp⟩)
        cases ks with
        | nil =>
          rw [fileAt_cons_nil, getKey_setKey_self]
          rcases hbranch with hb | ⟨hb, -⟩
          · rw [fileAt_cons_nil, hb]
          · rw [fileAt_cons_nil, hb]
        | cons k2 ks' =>
          rw [fileAt_cons_cons, getKey_setKey_self]
          rcases hbranch with hb | ⟨hb, hb2⟩
          · rw [fileAt_cons_cons, hb]
            exact insertParts_fileAt_preserve (p2 :: rest) inner content cs' (k2 :: ks')
              hcs' hpre'
          · subst hb2
            rw [fileAt_cons_cons, hb]
            show fileAt cs' (k2 :: ks') = false
            cases hf : fileAt cs' (k2 :: ks') with
            | false => rfl
            | true =>
              exfalso
              rcases insertParts_fileAt_new (p2 :: rest) [] content cs' (k2 :: ks') hcs' hf with
                hin | heq
              · rw [fileAt_nil_left] at hin
                cases hin
              · exact absurd (heq ▸ List.prefix_rfl) hpre'
      · exact fileAt_congr_head (getKey_setKey_other m part k _ (fun he => hk he.symm)) ks

theorem insertParts_keysUnique : ∀ (parts : List String) (m : List (String × TreeNode))
    (content : String) (out : List (String × TreeNode)), keysUnique m = true →
    insertParts m parts content = some out → keysUnique out = true
  | [], m, content, out => by
    intro hu h
    cases Option.some.inj h
    exact hu
  | [part], m, content, out => by
    intro hu h
    rw [insertParts_singleton] at h
    cases Option.some.inj h
    exact keysUnique_setKey m part _ hu rfl
  | part :: p2 :: rest, m, content, out => by
    intro hu h
    obtain ⟨inner, cs', hcs', hout, hbranch⟩ := insertParts_cons2_inv h
    subst hout
    have hinner : keysUnique inner = true := by
      rcases hbranch with hb | ⟨-, hb2⟩
      · exact keysUnique_getKey m part _ hu hb
      · rw [hb2]
        rfl
    have hcs'u : keysUnique cs' = true :=
      insertParts_keysUnique (p2 :: rest) inner content cs' hinner hcs'
    exact keysUnique_setKey m part _ hu hcs'u

theorem insertParts_ne_nil : ∀ (parts : List String) (m : List (String × TreeNode))
    (content : String) (out : List (String × TreeNode)), parts ≠ [] →
    insertParts m parts content = some out → out ≠ []
  | [], _, _, _ => by intro h _; exact absurd rfl h
  | [part], m, content, out => by
    intro _ h
    rw [insertParts_singleton] at h
    cases Option.some.inj h
    exact setKey_ne_nil m part _
  | part :: p2 :: rest, m, content, out => by
    intro _ h
    obtain ⟨inner, cs', -, hout, -⟩ := insertParts_cons2_inv h
    subst hout
    exact setKey_ne_nil m part _

theorem insertParts_dirsHaveFile : ∀ (parts : List String) (m : List (String × TreeNode))
    (content : String) (out : List (String × TreeNode)), dirsHaveFileL m = true →
    insertParts m parts content = some out → dirsHaveFileL out = true
  | [], m, content, out => by
    intro hd h
    cases Option.some.inj h
    exact hd
  | [part], m, content, out => by
    intro hd h
    rw [insertParts_singleton] at h
    cases Option.some.inj h
    exact dirsHaveFileL_setKey m part _ hd rfl
  | part :: p2 :: rest, m, content, out => by
    intro hd h
    obtain ⟨inner, cs', hcs', hout, hbranch⟩ := insertParts_cons2_inv h
    subst hout
    have hinner : dirsHaveFileL inner = true := by
      rcases hbranch with hb | ⟨-, hb2⟩
      · have := dirsHaveFileL_getKey m part _ hd hb
        rw [show dirsHaveFile (TreeNode.dir inner) =
          (!inner.isEmpty && dirsHaveFileL inner) from rfl] at this
        simp only [Bool.and_eq_true] at this
        exact this.2
      · rw [hb2]
        rfl
    have hcs'd : dirsHaveFileL cs' = true :=
      insertParts_dirsHaveFile (p2 :: rest) inner content cs' hinner hcs'
    have hne : cs' ≠ [] := insertParts_ne_nil (p2 :: rest) inner content cs' (by simp) hcs'
    apply dirsHaveFileL_setKey m part _ hd
    rw [show dirsHaveFile (TreeNode.dir cs') = (!cs'.isEmpty && dirsHaveFileL cs') from rfl]
    rw [Citations.isEmpty_false_of_ne_nil hne]
    simpa using hcs'd

theorem splitOnChar_ne_nil (sep : Char) (cs : List Char) : Str.splitOnChar sep cs ≠ [] := by
  cases cs with
  | nil => simp [Str.splitOnChar]
  | cons c cs' =>
    show (match Str.splitOnChar sep cs' with
      | l :: ls => if c = sep then [] :: l :: ls else (c :: l) :: ls
      | [] => [[]]) ≠ []
    rcases h : Str.splitOnChar sep cs' with _ | ⟨l, ls⟩
    · simp
    · by_cases hc : c = sep <;> simp [hc]

theorem pathComponents_ne_nil (fn : String) : pathComponents fn ≠ [] := by
  unfold pathComponents
  intro h
  exact splitOnChar_ne_nil '/' fn.data (List.map_eq_nil_iff.1 h)

theorem keptPaths_cons_none {f : FileRec} (fs : List FileRec) (h : f.filename = none) :
    keptPaths (f :: fs) = keptPaths fs := by
  simp [keptPaths, List.filterMap_cons, h]

theorem keptPaths_cons_empty {f : FileRec} (fs : List FileRec) {fn : String}
    (h : f.filename = some fn) (he : fn = "") :
    keptPaths (f :: fs) = keptPaths fs := by
  simp [keptPaths, List.filterMap_cons, h, he]

theorem keptPaths_cons_some {f : FileRec} (fs : List FileRec) {fn : String}
    (h : f.filename = some fn) (he : ¬fn = "") :
    keptPaths (f :: fs) = pathComponents fn :: keptPaths fs := by
  simp [keptPaths, List.filterMap_cons, h, he]

theorem buildGo : ∀ (files : List FileRec) (tree : List (String × TreeNode))
    (P : List (List String)),
    (∀ p ∈ P, fileAt tree p = true) →
    (∀ q, fileAt tree q = true → q ∈ P) →
    keysUnique tree = true → dirsHaveFileL tree = true →
    List.Pairwise PrefixFreeRel (P ++ keptPaths files) →
    ∃ t', (files.foldlM insertRecord tree) = some t' ∧
      (∀ p ∈ P ++ keptPaths files, fileAt t' p = true) ∧
      (∀ q, fileAt t' q = true → q ∈ P ++ keptPaths files) ∧
      keysUnique t' = true ∧ dirsHaveFileL t' = true := by
  intro files
  induction files with
  | nil =>
    intro tree P h1 h2 h3 h4 _
    refine ⟨tree, rfl, ?_, ?_, h3, h4⟩
    · intro p hp
      rw [show keptPaths [] = [] from rfl, List.append_nil] at hp
      exact h1 p hp
    · intro r hr
      rw [show keptPaths [] = [] from rfl, List.append_nil]
      exact h2 r hr
  | cons f fs ih =>
    intro tree P h1 h2 h3 h4 hpf
    rw [List.foldlM_cons]
    rcases hfn : f.filename with _ | fn
    · rw [keptPaths_cons_none fs hfn] at hpf ⊢
      have hstep : insertRecord tree f = some tree := by
        unfold insertRecord
        rw [hfn]
      rw [hstep]
      exact ih tree P h1 h2 h3 h4 hpf
    · by_cases he : fn = ""
      · rw [keptPaths_cons_empty fs hfn he] at hpf ⊢
        have hstep : insertRecord tree f = some tree := by
          unfold insertRecord
          rw [hfn]
          show (if fn = "" then some tree else _) = some tree
          rw [if_pos he]
        rw [hstep]
        exact ih tree P h1 h2 h3 h4 hpf
      · rw [keptPaths_cons_some fs hfn he] at hpf ⊢
        have hqP : ∀ p ∈ P, PrefixFreeRel p (pathComponents fn) := by
          intro p hp
          exact (List.pairwise_append.1 hpf).2.2 p hp (pathComponents fn)
            (List.mem_cons_self _ _)
        obtain ⟨t₁, ht₁⟩ := insertParts_isSome (pathComponents fn) tree
          (match f.content with | some c => c | none => "") (pathComponents_ne_nil fn)
          (fun r hr => (hqP r (h2 r hr)).1)
        have hstep : insertRecord tree f = some t₁ := by
          unfold insertRecord
          rw [hfn]
          show (if fn = "" then some tree
            else insertParts tree (pathComponents fn)
              (match f.content with | some c => c | none => "")) = some t₁
          rw [if_neg he]
          exact ht₁
        rw [hstep]
        have hA : ∀ p ∈ P ++ [pathComponents fn], fileAt t₁ p = true := by
          intro p hp
          rcases List.mem_append.1 hp with hp | hp
          · by_cases hpq : p = pathComponents fn
            · subst hpq
              exact insertParts_fileAt_self _ tree _ t₁ (pathComponents_ne_nil fn) ht₁
            · have hR := hqP p hp
              have hnpre : ¬(pathComponents fn <+: p) := fun hq2 =>
                hR.2 ⟨hq2, fun heq => hpq heq.symm⟩
              rw [insertParts_fileAt_preserve _ tree _ t₁ p ht₁ hnpre]
              exact h1 p hp
          · have : p = pathComponents fn := by simpa using hp
            subst this
            exact insertParts_fileAt_self _ tree _ t₁ (pathComponents_ne_nil fn) ht₁
        have hB : ∀ r, fileAt t₁ r = true → r ∈ P ++ [pathComponents fn] := by
          intro r hr
          rcases insertParts_fileAt_new _ tree _ t₁ r ht₁ hr with hin | heq
          · exact List.mem_append.2 (Or.inl (h2 r hin))
          · exact List.mem_append.2 (Or.inr (by simp [heq]))
        have hC : keysUnique t₁ = true := insertParts_keysUnique _ tree _ t₁ h3 ht₁
        have hD : dirsHaveFileL t₁ = true := insertParts_dirsHaveFile _ tree _ t₁ h4 ht₁
        have hpf' : List.Pairwise PrefixFreeRel ((P ++ [pathComponents fn]) ++ keptPaths fs) := by
          rwa [List.append_cons] at hpf
        obtain ⟨t', hfold, hA', hB', hC', hD'⟩ := ih t₁ (P ++ [pathComponents fn]) hA hB hC hD hpf'
        refine ⟨t', hfold, ?_, ?_, hC', hD'⟩
        · intro p hp
          apply hA'
          rw [List.append_cons] at hp
          exact hp
        · intro r hr
          rw [List.append_cons]
          exact hB' r hr

end Server

section ClaimTheorems4

open Server

/-- Counterexample to C9 as stated: when one kept path is a proper
component-prefix of another, the claimed invariants fail — inserting
"a" and then "a/b" walks into the file entry's missing children and
throws (modelled as none), while inserting "a/b" and then "a"
overwrites the directory, so the kept file a/b's component "b"
contributes no tree edge. -/
theorem directory_tree_counterexample :
    (generateDirectoryTree [⟨some "a", some "x"⟩, ⟨some "a/b", some "y"⟩]).isNone = true ∧
    ((generateDirectoryTree [⟨some "a/b", some "y"⟩, ⟨some "a", some "x"⟩]).map
      (fun t => hasEdgePath t ["a", "b"])) = some false ∧
    ["a", "b"] ∈ keptPaths [⟨some "a/b", some "y"⟩, ⟨some "a", some "x"⟩] := by
  refine ⟨by decide, by decide, by decide⟩

/-- C9 as amended: for every record list in which no kept record's
slash-split component list is a proper prefix of another kept
record's, the build succeeds; records with an empty or undefined path
are silently skipped; every kept file's components form a chain of
directory edges ending in a file entry (and the tree's file entries
are exactly the kept paths); sibling names are unique at every level;
and every directory node has at least one descendant file entry. -/
theorem directory_tree_invariants (files : List FileRec)
    (hpf : PrefixFree (keptPaths files)) :
    ∃ t, generateDirectoryTree files = some t ∧
      (∀ p ∈ keptPaths files, fileAt t p = true) ∧
      (∀ q, fileAt t q = true → q ∈ keptPaths files) ∧
      keysUnique t = true ∧ dirsHaveFileL t = true := by
  have h := buildGo files [] []
    (by intro p hp; cases hp)
    (by
      intro q hq
      rw [fileAt_nil_left q] at hq
      cases hq)
    rfl rfl
    (by simpa [PrefixFree] using hpf)
  obtain ⟨t, hfold, hA, hB, hC, hD⟩ := h
  refine ⟨t, hfold, ?_, ?_, hC, hD⟩
  · intro p hp
    exact hA p (by simpa using hp)
  · intro q hq
    have := hB q hq
    simpa using this

/-- Witness for the amended C9 at a concrete prefix-free record list
with one invalid record. -/
theorem directory_tree_invariants_witness :
    PrefixFree (keptPaths [⟨some "a/b.ts", some "x"⟩, ⟨some "", some "y"⟩, ⟨none, none⟩]) ∧
    (∃ t, generateDirectoryTree [⟨some "a/b.ts", some "x"⟩, ⟨some "", some "y"⟩, ⟨none, none⟩] = some t ∧
      (∀ p ∈ keptPaths [⟨some "a/b.ts", some "x"⟩, ⟨some "", some "y"⟩, ⟨none, none⟩], fileAt t p = true) ∧
      (∀ q, fileAt t q = true → q ∈ keptPaths [⟨some "a/b.ts", some "x"⟩, ⟨some "", some "y"⟩, ⟨none, none⟩]) ∧
      keysUnique t = true ∧ dirsHaveFileL t = true) :=
  ⟨by unfold PrefixFree PrefixFreeRel; decide, directory_tree_invariants _
    (by unfold PrefixFree PrefixFreeRel; decide)⟩

end ClaimTheorems4




